import Mathlib

/-!
# grafana-cli `services` package: plugin manifest resolution and registry client

A shallow embedding of `pkg/cmd/grafana-cli/services/services.go`.

Conventions of the embedding

* Go strings and byte slices are Lean `String`s; the library routines that scan
  them byte by byte (`path.Clean`, the JSON scanner) work on the character list.
* A Go `error` is identified with the text of its `Error()` method.
* The collaborators behind `IoHelper` read a filesystem state `σ`; every call made
  on `IoHelper` is recorded in a call list returned next to the Go result.
* A nil pointer dereference is an explicit `Outcome.panicked` result.
-/

namespace Grafana.Services

/-! ## Go values -/

/-- Go `error` value, identified with its message text. -/
structure Error where
  msg : String
deriving DecidableEq, Repr

/-- Go `errors.New`. -/
def errorsNew (text : String) : Error := ⟨text⟩

/-- Go `fmt.Errorf("Failed to create request. error: %v", err)`: the verb `%v`
prints the message of `err`. -/
def errorfFailedToCreateRequest (err : Error) : Error :=
  ⟨"Failed to create request. error: " ++ err.msg⟩

/-- Result of running Go code that may stop with a run-time panic. -/
inductive Outcome (α : Type) where
  | returned (a : α)
  | panicked (why : String)
deriving DecidableEq, Repr

/-! ## `path.Clean` and `path.Join` of the Go standard library -/

/-- Inner loop of the `..` case of `path.Clean`: after `out.w--`, keep lowering `w`
while `out.w > dotdot && out.index(out.w) != '/'`. The argument is the current `w`. -/
def backtrackLoop (buf : List Char) (dotdot : Nat) : Nat → Nat
  | 0 => 0
  | w + 1 =>
    if w + 1 > dotdot ∧ buf.get? (w + 1) ≠ some '/' then backtrackLoop buf dotdot w
    else w + 1

/-- The `..` backtrack of `path.Clean`: `out.w--` followed by the inner loop; the
buffer is cut at the resulting `w`. -/
def backtrack (out : List Char) (dotdot : Nat) : List Char :=
  out.take (backtrackLoop out dotdot (out.length - 1))

/-- Main loop `for r < n` of `path.Clean`. `rest` is `path[r:]`, `out` the bytes
written so far (`out.w = out.length`), `dotdot` the index where `..` must stop; the
result is the final `out` and `dotdot`. Every iteration consumes at least one byte,
so `rest.length` iterations suffice; the first argument bounds the number of
iterations. -/
def cleanLoop (rooted : Bool) : Nat → List Char → List Char → Nat → List Char × Nat
  | 0, _, out, dotdot => (out, dotdot)
  | _ + 1, [], out, dotdot => (out, dotdot)
  | fuel + 1, c :: t, out, dotdot =>
    if c = '/' then
      -- empty path element
      cleanLoop rooted fuel t out dotdot
    else if c = '.' ∧ (t = [] ∨ t.head? = some '/') then
      -- . element
      cleanLoop rooted fuel t out dotdot
    else if c = '.' ∧ t.head? = some '.' ∧ (t.tail = [] ∨ t.tail.head? = some '/') then
      -- .. element: remove to last /
      if out.length > dotdot then
        cleanLoop rooted fuel t.tail (backtrack out dotdot) dotdot
      else if rooted = false then
        let out1 := if out.length > 0 then out ++ ['/'] else out
        let out2 := out1 ++ ['.', '.']
        cleanLoop rooted fuel t.tail out2 out2.length
      else
        cleanLoop rooted fuel t.tail out dotdot
    else
      -- real path element: add slash if needed, then copy the element
      let out1 :=
        if (rooted = true ∧ out.length ≠ 1) ∨ (rooted = false ∧ out.length ≠ 0) then out ++ ['/']
        else out
      let elem := (c :: t).takeWhile (fun x => x ≠ '/')
      let rest := (c :: t).dropWhile (fun x => x ≠ '/')
      cleanLoop rooted fuel rest (out1 ++ elem) dotdot

/-- Go `path.Clean` on the character list of the path. -/
def cleanChars (path : List Char) : List Char :=
  if path = [] then ['.']
  else
    let rooted : Bool := path.head? = some '/'
    let out :=
      if rooted then (cleanLoop rooted path.length path.tail ['/'] 1).1
      else (cleanLoop rooted path.length path [] 0).1
    -- Turn empty string into "."
    if out.length = 0 then ['.'] else out

/-- Go `path.Clean`. -/
def Clean (path : String) : String := ⟨cleanChars path.data⟩

/-- The buffer built by `path.Join` before cleaning: the elements from the first
non-empty one on, separated by `/`. -/
def joinBuf (elem : List String) : List Char :=
  elem.foldl
    (fun buf e =>
      if buf.length > 0 ∨ e ≠ "" then
        (if buf.length > 0 then buf ++ ['/'] else buf) ++ e.data
      else buf)
    []

/-- Go `path.Join`. -/
def Join (elem : List String) : String :=
  let size := (elem.map String.length).sum
  if size = 0 then "" else ⟨cleanChars (joinBuf elem)⟩

/-! ## `encoding/json` of the Go standard library -/

/-- A JSON value as the scanner of `encoding/json` delimits it. A number keeps its
literal text. -/
inductive JsonValue where
  | null
  | bool (b : Bool)
  | number (lit : String)
  | string (s : String)
  | array (items : List JsonValue)
  | object (members : List (String × JsonValue))

/-- The name `encoding/json` gives a JSON value in an `UnmarshalTypeError`. -/
def JsonValue.kind : JsonValue → String
  | .null => "null"
  | .bool _ => "bool"
  | .number _ => "number"
  | .string _ => "string"
  | .array _ => "array"
  | .object _ => "object"

/-- JSON white space (`isSpace` of the scanner). -/
def isSpace (c : Char) : Bool := c = ' ' || c = '\t' || c = '\r' || c = '\n'

/-- Value of one hexadecimal digit. -/
def hexDigit (c : Char) : Option Nat :=
  if '0' ≤ c ∧ c ≤ '9' then some (c.toNat - '0'.toNat)
  else if 'a' ≤ c ∧ c ≤ 'f' then some (c.toNat - 'a'.toNat + 10)
  else if 'A' ≤ c ∧ c ≤ 'F' then some (c.toNat - 'A'.toNat + 10)
  else none

/-- Decoder `getu4` of the four hexadecimal digits of a `\u` escape. -/
def getu4 (a b c d : Char) : Option Nat :=
  match hexDigit a, hexDigit b, hexDigit c, hexDigit d with
  | some w, some x, some y, some z => some (((w * 16 + x) * 16 + y) * 16 + z)
  | _, _, _, _ => none

/-- The single-character escapes of a JSON string. -/
def unescapeChar (e : Char) : Option Char :=
  if e = '"' then some '"'
  else if e = '\\' then some '\\'
  else if e = '/' then some '/'
  else if e = 'b' then some (Char.ofNat 8)
  else if e = 'f' then some (Char.ofNat 12)
  else if e = 'n' then some '\n'
  else if e = 'r' then some '\r'
  else if e = 't' then some '\t'
  else none

/-- The low half of a surrogate pair written as a second `\u` escape, if the input
continues with one. -/
def lowSurrogate : List Char → Option Nat
  | x :: y :: a :: b :: c :: d :: _ =>
    if x = '\\' ∧ y = 'u' then
      match getu4 a b c d with
      | some n => if 0xDC00 ≤ n ∧ n < 0xE000 then some n else none
      | none => none
    else none
  | _ => none

/-- Scanning and unquoting of a JSON string, entered after the opening quote. The
result is the decoded text and the input after the closing quote. -/
def scanString : Nat → List Char → List Char → Option (String × List Char)
  | 0, _, _ => none
  | _ + 1, [], _ => none
  | fuel + 1, c :: t, acc =>
    if c = '"' then some (⟨acc⟩, t)
    else if c = '\\' then
      match t with
      | [] => none
      | e :: t1 =>
        if e = 'u' then
          match t1 with
          | a :: b :: c1 :: d :: t2 =>
            match getu4 a b c1 d with
            | none => none
            | some n =>
              if 0xD800 ≤ n ∧ n < 0xE000 then
                -- a surrogate half: combined with a following low half, else U+FFFD
                match (if n < 0xDC00 then lowSurrogate t2 else none) with
                | some lo =>
                  scanString fuel (t2.drop 6)
                    (acc ++ [Char.ofNat (0x10000 + (n - 0xD800) * 0x400 + (lo - 0xDC00))])
                | none => scanString fuel t2 (acc ++ [Char.ofNat 0xFFFD])
              else scanString fuel t2 (acc ++ [Char.ofNat n])
          | _ => none
        else
          match unescapeChar e with
          | some x => scanString fuel t1 (acc ++ [x])
          | none => none
    else if c.toNat < 0x20 then none
    else scanString fuel t (acc ++ [c])

/-- The digits at the head of the input, and the rest. -/
def scanDigits (cs : List Char) : List Char × List Char :=
  (cs.takeWhile Char.isDigit, cs.dropWhile Char.isDigit)

/-- Scanning of a JSON number: `-? (0 | [1-9][0-9]*) (. [0-9]+)? ([eE] [+-]? [0-9]+)?`. -/
def scanNumber (cs : List Char) : Option (String × List Char) :=
  let (sign, cs1) := match cs with
    | '-' :: t => (['-'], t)
    | _ => ([], cs)
  let intPart : Option (List Char × List Char) := match cs1 with
    | [] => none
    | d :: t =>
      if d = '0' then some (['0'], t)
      else if d.isDigit then some (d :: (scanDigits t).1, (scanDigits t).2)
      else none
  match intPart with
  | none => none
  | some (ip, cs2) =>
    let frac : Option (List Char × List Char) := match cs2 with
      | '.' :: t =>
        if (scanDigits t).1 = [] then none else some ('.' :: (scanDigits t).1, (scanDigits t).2)
      | _ => some ([], cs2)
    match frac with
    | none => none
    | some (fp, cs3) =>
      let expo : Option (List Char × List Char) := match cs3 with
        | e :: t =>
          if e = 'e' ∨ e = 'E' then
            let (sg, t1) := match t with
              | s :: t0 => if s = '+' ∨ s = '-' then ([s], t0) else ([], t)
              | [] => ([], t)
            if (scanDigits t1).1 = [] then none
            else some (e :: sg ++ (scanDigits t1).1, (scanDigits t1).2)
          else some ([], cs3)
        | [] => some ([], cs3)
      match expo with
      | none => none
      | some (ep, cs4) => some (⟨sign ++ ip ++ fp ++ ep⟩, cs4)

/-- The elements of a JSON array after the first one: `, value` repeated up to `]`.
`pv` scans one value. -/
def scanElements (pv : List Char → Option (JsonValue × List Char)) :
    Nat → List Char → List JsonValue → Option (List JsonValue × List Char)
  | 0, _, _ => none
  | fuel + 1, cs, acc =>
    match cs.dropWhile isSpace with
    | [] => none
    | c :: t =>
      if c = ']' then some (acc, t)
      else if c = ',' then
        match pv t with
        | some (v, rest) => scanElements pv fuel rest (acc ++ [v])
        | none => none
      else none

/-- One member `"key" : value` of a JSON object. -/
def scanMember (pv : List Char → Option (JsonValue × List Char)) (cs : List Char) :
    Option ((String × JsonValue) × List Char) :=
  match cs.dropWhile isSpace with
  | [] => none
  | q :: t =>
    if q = '"' then
      match scanString (t.length + 1) t [] with
      | none => none
      | some (key, rest) =>
        match rest.dropWhile isSpace with
        | [] => none
        | colon :: rest1 =>
          if colon = ':' then
            match pv rest1 with
            | some (v, rest2) => some ((key, v), rest2)
            | none => none
          else none
    else none

/-- The members of a JSON object after the first one: `, member` repeated up to the
closing brace. -/
def scanMembers (pv : List Char → Option (JsonValue × List Char)) :
    Nat → List Char → List (String × JsonValue) → Option (List (String × JsonValue) × List Char)
  | 0, _, _ => none
  | fuel + 1, cs, acc =>
    match cs.dropWhile isSpace with
    | [] => none
    | c :: t =>
      if c = '}' then some (acc, t)
      else if c = ',' then
        match scanMember pv t with
        | some (m, rest) => scanMembers pv fuel rest (acc ++ [m])
        | none => none
      else none

/-- Scanning of one JSON value at the head of the input (leading white space
skipped). The first argument bounds the nesting depth and the number of items of
one array or object; the input length plus one is always enough. -/
def scanValue : Nat → List Char → Option (JsonValue × List Char)
  | 0, _ => none
  | fuel + 1, cs =>
    match cs.dropWhile isSpace with
    | [] => none
    | c :: t =>
      if c = '{' then
        match t.dropWhile isSpace with
        | [] => none
        | c1 :: t1 =>
          if c1 = '}' then some (.object [], t1)
          else
            match scanMember (scanValue fuel) t with
            | none => none
            | some (m, rest) =>
              match scanMembers (scanValue fuel) fuel rest [m] with
              | some (ms, rest1) => some (.object ms, rest1)
              | none => none
      else if c = '[' then
        match t.dropWhile isSpace with
        | [] => none
        | c1 :: t1 =>
          if c1 = ']' then some (.array [], t1)
          else
            match scanValue fuel t with
            | none => none
            | some (v, rest) =>
              match scanElements (scanValue fuel) fuel rest [v] with
              | some (vs, rest1) => some (.array vs, rest1)
              | none => none
      else if c = '"' then
        match scanString (t.length + 1) t [] with
        | some (s, rest) => some (.string s, rest)
        | none => none
      else if c = '-' ∨ c.isDigit then
        match scanNumber (c :: t) with
        | some (lit, rest) => some (.number lit, rest)
        | none => none
      else if (c :: t).take 4 = ['t', 'r', 'u', 'e'] then some (.bool true, (c :: t).drop 4)
      else if (c :: t).take 5 = ['f', 'a', 'l', 's', 'e'] then some (.bool false, (c :: t).drop 5)
      else if (c :: t).take 4 = ['n', 'u', 'l', 'l'] then some (.null, (c :: t).drop 4)
      else none

/-- The whole input as one JSON value, as `checkValid` accepts it: a single value
with nothing but white space after it. `none` is a JSON grammar error. -/
def parseJSON (data : String) : Option JsonValue :=
  match scanValue (data.length + 1) data.data with
  | some (v, rest) => if rest.dropWhile isSpace = [] then some v else none
  | none => none

/-- Simple case folding onto the ASCII letters, as the field lookup of
`encoding/json` applies it: besides `A`..`Z`, only U+017F (long s) and U+212A
(Kelvin sign) fold to an ASCII letter. -/
def foldChar (c : Char) : Char :=
  if 'A' ≤ c ∧ c ≤ 'Z' then Char.ofNat (c.toNat + 32)
  else if c = Char.ofNat 0x17F then 's'
  else if c = Char.ofNat 0x212A then 'k'
  else c

/-- Whether an object key selects the struct field with the given (ASCII) JSON
name: an exact match or a case-insensitive one. -/
def fieldMatch (key field : String) : Bool :=
  key = field || key.data.map foldChar = field.data.map foldChar

/-- Error bookkeeping `saveError` of the decoder: the earliest error is kept. -/
def saveError (saved : Option Error) (err : Error) : Option Error :=
  match saved with
  | none => some err
  | some e => some e

/-- The `UnmarshalTypeError` for a JSON value that does not fit a Go target. -/
def unmarshalTypeError (v : JsonValue) (target : String) : Error :=
  ⟨"json: cannot unmarshal " ++ v.kind ++ " into Go " ++ target⟩

/-- Decoding of a JSON value into a Go `string` field: a string is stored, `null`
leaves the field alone, anything else is a type error and the field is skipped. -/
def decodeString (v : JsonValue) (field : String) (cur : String) (saved : Option Error) :
    String × Option Error :=
  match v with
  | .string s => (s, saved)
  | .null => (cur, saved)
  | other =>
    (cur, saveError saved
      (unmarshalTypeError other ("struct field " ++ field ++ " of type string")))

/-! ## Types of the `models` package -/

/-- Modelled from the spec: the info block of `InstalledPlugin` (package `models`,
not part of this file), "containing a semantic version string". -/
structure PluginInfo where
  Version : String

/-- Modelled from the spec: `InstalledPlugin` of the package `models` (not part of
this file): "identifier (string, required, non-empty), info block containing a
semantic version string, and arbitrary additional manifest fields passed through
opaquely". -/
structure InstalledPlugin where
  Id : String
  Info : PluginInfo
  Extra : List (String × JsonValue)

/-- The Go zero value `m.InstalledPlugin{}`. -/
def InstalledPlugin.zero : InstalledPlugin := ⟨"", ⟨""⟩, []⟩

/-- A stand-in for `os.FileInfo`; the package only calls `Name()`. -/
structure FileInfo where
  Name : String
deriving DecidableEq, Repr

/-- Modelled from the spec: the `IoUtil` interface of the package `models` (not part
of this file) behind `IoHelper`: "a directory-listing provider (returns directory
entries or an error), a file-read provider (returns bytes or an error), an
existence-check provider (stat), a recursive-delete provider". The three readers
inspect the filesystem state `σ`; `RemoveAll` yields its error (or nil) and the
state it leaves. -/
structure IoUtil (σ : Type) where
  Stat : String → σ → Except Error FileInfo
  RemoveAll : String → σ → Option Error × σ
  ReadDir : String → σ → Except Error (List FileInfo)
  ReadFile : String → σ → Except Error String

/-- A call made on `IoHelper`. -/
inductive IoCall where
  | Stat (name : String)
  | RemoveAll (name : String)
  | ReadDir (name : String)
  | ReadFile (name : String)
deriving DecidableEq, Repr

/-- The effect of `json.Unmarshal(data, &v)`: the value left in `v` and the error
returned. -/
abbrev Unmarshal (α : Type) := String → α → α × Option Error

/-! ## `json.Unmarshal` into an `InstalledPlugin` -/

/-- Decoding of the `info` member: an object fills `Version` from its version
member (other members have no field), `null` is skipped, anything else is a type
error. -/
def decodeInfo (v : JsonValue) (cur : PluginInfo) (saved : Option Error) :
    PluginInfo × Option Error :=
  match v with
  | .object members =>
    members.foldl
      (fun (acc : PluginInfo × Option Error) (m : String × JsonValue) =>
        if fieldMatch m.1 "version" then
          let r := decodeString m.2 "InstalledPlugin.info.version" acc.1.Version acc.2
          ({ acc.1 with Version := r.1 }, r.2)
        else acc)
      (cur, saved)
  | .null => (cur, saved)
  | other =>
    (cur, saveError saved
      (unmarshalTypeError other "struct field InstalledPlugin.info of type PluginInfo"))

/-- Decoding of a manifest value into an `InstalledPlugin`, whose fields carry the
JSON names `id` and `info` (with `version` inside) of the `plugin.json` format: the
members of an object are stored one by one in input order; a member of the wrong
JSON type is skipped, its error is remembered, and decoding goes on with the next
member. Members without a field of their own are kept in `Extra`. -/
def decodePlugin (v : JsonValue) (cur : InstalledPlugin) : InstalledPlugin × Option Error :=
  match v with
  | .object members =>
    members.foldl
      (fun (acc : InstalledPlugin × Option Error) (m : String × JsonValue) =>
        if fieldMatch m.1 "id" then
          let r := decodeString m.2 "InstalledPlugin.id" acc.1.Id acc.2
          ({ acc.1 with Id := r.1 }, r.2)
        else if fieldMatch m.1 "info" then
          let r := decodeInfo m.2 acc.1.Info acc.2
          ({ acc.1 with Info := r.1 }, r.2)
        else ({ acc.1 with Extra := acc.1.Extra ++ [m] }, acc.2))
      (cur, none)
  | .null => (cur, none)
  | other => (cur, some (unmarshalTypeError other "value of type InstalledPlugin"))

/-- Go `json.Unmarshal(data, &res)` for `res` an `InstalledPlugin`: input that is
not one well-formed JSON value is rejected before anything is stored (the text of
that error is abridged); otherwise the value is decoded and the earliest type
error, if any, is returned. -/
def jsonUnmarshal : Unmarshal InstalledPlugin := fun data res =>
  match parseJSON data with
  | none => (res, some ⟨"json: invalid JSON input"⟩)
  | some v => decodePlugin v res

/-! ## The manifest resolver -/

variable {σ : Type}

/-- Embedding of `ReadPlugin(pluginDir, pluginName)`, run on the filesystem state
`fs`. The result pairs the Go return values with the `IoHelper` calls made. -/
def ReadPlugin (io : IoUtil σ) (unmarshal : Unmarshal InstalledPlugin) (fs : σ)
    (pluginDir pluginName : String) : (InstalledPlugin × Option Error) × List IoCall :=
  let distPluginDataPath := Join [pluginDir, pluginName, "dist", "plugin.json"]
  let first := io.ReadFile distPluginDataPath fs
  let read : Except Error String × List IoCall :=
    match first with
    | .ok data => (.ok data, [IoCall.ReadFile distPluginDataPath])
    | .error _ =>
      let pluginDataPath := Join [pluginDir, pluginName, "plugin.json"]
      (io.ReadFile pluginDataPath fs,
        [IoCall.ReadFile distPluginDataPath, IoCall.ReadFile pluginDataPath])
  match read.1 with
  | .error _ =>
    ((InstalledPlugin.zero,
      some (errorsNew ("Could not find dist/plugin.json or plugin.json on  " ++ pluginName
        ++ " in " ++ pluginDir))), read.2)
  | .ok data =>
    let res := (unmarshal data InstalledPlugin.zero).1
    let res :=
      if res.Info.Version = "" then { res with Info := { res.Info with Version := "0.0.0" } }
      else res
    if res.Id = "" then
      ((InstalledPlugin.zero,
        some (errorsNew ("could not find plugin " ++ pluginName ++ " in " ++ pluginDir))), read.2)
    else ((res, none), read.2)

/-- Embedding of `GetLocalPlugins(pluginDir)`: the loop over the directory entries
appends every plugin that `ReadPlugin` returns without error. A failed listing
leaves `files` nil. -/
def GetLocalPlugins (io : IoUtil σ) (unmarshal : Unmarshal InstalledPlugin) (fs : σ)
    (pluginDir : String) : List InstalledPlugin × List IoCall :=
  let files : List FileInfo :=
    match io.ReadDir pluginDir fs with
    | .ok fis => fis
    | .error _ => []
  files.foldl
    (fun (acc : List InstalledPlugin × List IoCall) (f : FileInfo) =>
      let r := ReadPlugin io unmarshal fs pluginDir f.Name
      match r.1.2 with
      | none => (acc.1 ++ [r.1.1], acc.2 ++ r.2)
      | some _ => (acc.1, acc.2 ++ r.2))
    ([], [IoCall.ReadDir pluginDir])

/-- Embedding of `RemoveInstalledPlugin(pluginPath, pluginName)`: the returned
error (or nil), the filesystem state left behind, and the `IoHelper` calls made. -/
def RemoveInstalledPlugin (io : IoUtil σ) (fs : σ) (pluginPath pluginName : String) :
    Option Error × σ × List IoCall :=
  let pluginDir := Join [pluginPath, pluginName]
  match io.Stat pluginDir fs with
  | .error err => (some err, fs, [IoCall.Stat pluginDir])
  | .ok _ =>
    let r := io.RemoveAll pluginDir fs
    (r.1, r.2, [IoCall.Stat pluginDir, IoCall.RemoveAll pluginDir])

/-! ## The registry client -/

/-- Go `url.URL`, reduced to the fields a base URL of the registry carries; the
package only rewrites `Path`. -/
structure URL where
  Scheme : String
  Host : String
  Path : String
deriving DecidableEq, Repr

/-- Go `http.Request`, reduced to method, target and the `Header.Set` calls made
on it, in order. -/
structure Request where
  Method : String
  URL : String
  Header : List (String × String)
deriving DecidableEq, Repr

/-- Go `req.Header.Set(key, value)`, recorded behind the earlier calls. -/
def Request.headerSet (req : Request) (key value : String) : Request :=
  { req with Header := req.Header ++ [(key, value)] }

/-- Go `http.Response`; `Body` is what `ioutil.ReadAll(res.Body)` yields. -/
structure Response where
  Body : String × Option Error
deriving DecidableEq, Repr

/-- The package variables `HttpClient` and `grafanaVersion` together with the
`net/url` and `net/http` routines the client calls. `Do` yields a response pointer
(nil is `none`) and an error (nil is `none`). -/
structure HttpEnv where
  grafanaVersion : String
  urlParse : String → Except Error URL
  urlString : URL → String
  NewRequest : String → String → Except Error Request
  Do : Request → Option Response × Option Error

/-- A call made on `net/http`. -/
inductive HttpCall where
  | NewRequest (method target : String)
  | Do (req : Request)
deriving DecidableEq, Repr

/-- Embedding of `createRequest(repoUrl, subPaths...)`. Dereferencing a nil `u`,
`req` or `res` is a panic. -/
def createRequest (env : HttpEnv) (repoUrl : String) (subPaths : List String) :
    Outcome (String × Option Error) × List HttpCall :=
  match env.urlParse repoUrl with
  | .error _ => (.panicked "nil pointer dereference (u)", [])
  | .ok u0 =>
    let u := subPaths.foldl (fun (u : URL) v => { u with Path := Join [u.Path, v] }) u0
    let target := env.urlString u
    match env.NewRequest "GET" target with
    | .error _ => (.panicked "nil pointer dereference (req)", [HttpCall.NewRequest "GET" target])
    | .ok req0 =>
      let req := (req0.headerSet "grafana-version" env.grafanaVersion).headerSet
        "User-Agent" ("grafana " ++ env.grafanaVersion)
      match env.Do req with
      | (none, _) =>
        (.panicked "nil pointer dereference (res)",
          [HttpCall.NewRequest "GET" target, HttpCall.Do req])
      | (some res, _) =>
        (.returned res.Body, [HttpCall.NewRequest "GET" target, HttpCall.Do req])

/-- Embedding of `ListAllPlugins(repoUrl)`; `default` is the zero value
`m.PluginRepo{}` of the catalog type, which the package `models` declares. -/
def ListAllPlugins {PluginRepo : Type} [Inhabited PluginRepo] (env : HttpEnv)
    (unmarshal : Unmarshal PluginRepo) (repoUrl : String) :
    Outcome (PluginRepo × Option Error) × List HttpCall :=
  let r := createRequest env repoUrl ["repo"]
  match r.1 with
  | .panicked why => (.panicked why, r.2)
  | .returned (_, some err) => (.returned (default, some (errorfFailedToCreateRequest err)), r.2)
  | .returned (body, none) =>
    match unmarshal body default with
    | (_, some err) => (.returned (default, some err), r.2)
    | (data, none) => (.returned (data, none), r.2)

/-- Embedding of `GetPlugin(pluginId, repoUrl)`; `default` is the zero value
`m.Plugin{}` of the plugin type, which the package `models` declares. -/
def GetPlugin {Plugin : Type} [Inhabited Plugin] (env : HttpEnv)
    (unmarshal : Unmarshal Plugin) (pluginId repoUrl : String) :
    Outcome (Plugin × Option Error) × List HttpCall :=
  let r := createRequest env repoUrl ["repo", pluginId]
  match r.1 with
  | .panicked why => (.panicked why, r.2)
  | .returned (_, some err) => (.returned (default, some (errorfFailedToCreateRequest err)), r.2)
  | .returned (body, none) =>
    match unmarshal body default with
    | (_, some err) => (.returned (default, some err), r.2)
    | (data, none) => (.returned (data, none), r.2)

/-! ## Example fixtures -/

/-- A filesystem given by its regular files (path, content) and its directories
(path, entry names). -/
structure MemFS where
  files : List (String × String)
  dirs : List (String × List String)

/-- Whether `name` is `root` or lies below it. -/
def MemFS.under (root name : String) : Bool :=
  name = root || (root ++ "/").data.isPrefixOf name.data

/-- The `IoUtil` of a `MemFS`. -/
def memIo : IoUtil MemFS where
  Stat name fs :=
    if (fs.dirs.lookup name).isSome || (fs.files.lookup name).isSome then .ok ⟨name⟩
    else .error ⟨"stat " ++ name ++ ": no such file or directory"⟩
  RemoveAll name fs :=
    (none, ⟨fs.files.filter (fun f => !MemFS.under name f.1),
      fs.dirs.filter (fun d => !MemFS.under name d.1)⟩)
  ReadDir name fs :=
    match fs.dirs.lookup name with
    | some names => .ok (names.map FileInfo.mk)
    | none => .error ⟨"open " ++ name ++ ": no such file or directory"⟩
  ReadFile name fs :=
    match fs.files.lookup name with
    | some data => .ok data
    | none => .error ⟨"open " ++ name ++ ": no such file or directory"⟩

/-- An installation root `/plugins` with three plugins: `a` packaged under `dist`,
`b` unpackaged, `c` with a manifest lacking a version; `nomanifest` has no manifest. -/
def exampleFS : MemFS where
  files :=
    [("/plugins/a/dist/plugin.json", "\x7b\"id\":\"a-panel\",\"info\":\x7b\"version\":\"1.0.0\"\x7d\x7d"),
     ("/plugins/a/plugin.json", "\x7b\"id\":\"a-source\",\"info\":\x7b\"version\":\"0.9.0\"\x7d\x7d"),
     ("/plugins/b/plugin.json", "\x7b\"id\":\"b-app\",\"info\":\x7b\"version\":\"2.1.0\"\x7d\x7d"),
     ("/plugins/c/plugin.json", "\x7b\"id\":\"c-datasource\",\"type\":\"datasource\"\x7d")]
  dirs :=
    [("/plugins", ["a", "nomanifest", "b", "c"]),
     ("/plugins/a", ["dist", "plugin.json"]), ("/plugins/a/dist", ["plugin.json"]),
     ("/plugins/nomanifest", []), ("/plugins/b", ["plugin.json"]), ("/plugins/c", ["plugin.json"])]

/-- The table of `url.Parse` results for the base URLs of the examples. -/
def exampleURLParse (rawurl : String) : Except Error URL :=
  if rawurl = "http://example.test" then .ok ⟨"http", "example.test", ""⟩
  else if rawurl = "http://example.test/api" then .ok ⟨"http", "example.test", "/api"⟩
  else .error ⟨"parse " ++ rawurl ++ ": not a base URL of the examples"⟩

/-- Go `(*URL).String` for a URL made of a scheme, a host and a path that needs no
escaping: a path that does not start with `/` is separated from the host by one. -/
def exampleURLString (u : URL) : String :=
  u.Scheme ++ "://" ++ u.Host
    ++ (if u.Path ≠ "" ∧ u.Path.data.head? ≠ some '/' then "/" else "") ++ u.Path

/-- A client of version `5.0.0` whose transport is the given function. -/
def exampleEnv (transport : Request → Option Response × Option Error) : HttpEnv where
  grafanaVersion := "5.0.0"
  urlParse := exampleURLParse
  urlString := exampleURLString
  NewRequest method target := .ok ⟨method, target, []⟩
  Do := transport

/-- A transport that fails: no response, and an error. -/
def transportDown : Request → Option Response × Option Error :=
  fun _ => (none, some ⟨"dial tcp: connection refused"⟩)

/-- A transport that answers every request with an empty JSON object. -/
def transportUp : Request → Option Response × Option Error :=
  fun _ => (some ⟨("\x7b\x7d", none)⟩, none)

/-! ## Definitions used in the statements and proofs -/

/-- The loop of `path.Clean` run to the end of `rest` from the state `st`. -/
def cleanRun (rooted : Bool) (rest : List Char) (st : List Char × Nat) : List Char × Nat :=
  cleanLoop rooted rest.length rest st.1 st.2

/-- What the loop does with one path element, a run of bytes without `/`. -/
def stepElem (rooted : Bool) (e : List Char) (st : List Char × Nat) : List Char × Nat :=
  if e = [] ∨ e = ['.'] then st
  else if e = ['.', '.'] then
    if st.1.length > st.2 then (backtrack st.1 st.2, st.2)
    else if rooted = false then
      ((if st.1.length > 0 then st.1 ++ ['/'] else st.1) ++ ['.', '.'],
        ((if st.1.length > 0 then st.1 ++ ['/'] else st.1) ++ ['.', '.']).length)
    else st
  else
    ((if (rooted = true ∧ st.1.length ≠ 1) ∨ (rooted = false ∧ st.1.length ≠ 0)
        then st.1 ++ ['/'] else st.1) ++ e, st.2)

/-- Whether `path.Clean` treats the path as rooted. -/
def isRooted (path : List Char) : Bool := path.head? = some '/'

/-- The state in which the loop of `path.Clean` ends on the given path. -/
def endState (path : List Char) : List Char × Nat :=
  if isRooted path then cleanRun true path.tail (['/'], 1) else cleanRun false path ([], 0)

/-- The last step of `path.Clean`: an empty buffer becomes `.`. -/
def finish (out : List Char) : List Char := if out.length = 0 then ['.'] else out

/-- An ordinary path element: not empty, without `/`, and neither `.` nor `..`. -/
def Ordinary (e : List Char) : Prop :=
  e ≠ [] ∧ '/' ∉ e ∧ e ≠ ['.'] ∧ e ≠ ['.', '.']

instance (e : List Char) : Decidable (Ordinary e) := by
  unfold Ordinary; infer_instance

/-- Number of bytes (0 or 1) the loop writes before an ordinary element. -/
def sepLen (rooted : Bool) (n : Nat) : Nat :=
  if (rooted = true ∧ n ≠ 1) ∨ (rooted = false ∧ n ≠ 0) then 1 else 0

/-- Path elements written one after the other with `/` between them. -/
def render : List (List Char) → List Char
  | [] => []
  | [e] => e
  | e :: f :: es => e ++ '/' :: render (f :: es)

/-- The leading `/` of a rooted buffer. -/
def rootOf (rooted : Bool) : List Char := if rooted then ['/'] else []

/-- The loop state whose buffer holds `k` leading `..` elements followed by the
elements `es`; `dotdot` marks the end of the leading part. -/
def stateOf (rooted : Bool) (k : Nat) (es : List (List Char)) : List Char × Nat :=
  (rootOf rooted ++ render (List.replicate k ['.', '.'] ++ es),
    (rootOf rooted ++ render (List.replicate k ['.', '.'])).length)

/-- The states the loop of `path.Clean` can be in: a root, leading `..` elements
(unrooted paths only) and ordinary elements. -/
def CleanState (rooted : Bool) (st : List Char × Nat) : Prop :=
  ∃ k es, (rooted = true → k = 0) ∧ (∀ e ∈ es, Ordinary e) ∧ st = stateOf rooted k es

/-- The elements of a path: the runs of bytes between its slashes. -/
def splitSlash : List Char → List (List Char)
  | [] => [[]]
  | c :: t =>
    if c = '/' then [] :: splitSlash t
    else
      match splitSlash t with
      | [] => [[c]]
      | e :: es => (c :: e) :: es

/-- Elements written one after the other, each behind a `/`. -/
def slashed : List (List Char) → List Char
  | [] => []
  | e :: es => '/' :: e ++ slashed es

/-- One member of the `info` object, as `decodeInfo` stores it. -/
def infoStep (acc : PluginInfo × Option Error) (m : String × JsonValue) :
    PluginInfo × Option Error :=
  if fieldMatch m.1 "version" then
    let r := decodeString m.2 "InstalledPlugin.info.version" acc.1.Version acc.2
    ({ acc.1 with Version := r.1 }, r.2)
  else acc

/-- One member of the manifest object, as `decodePlugin` stores it. -/
def pluginStep (acc : InstalledPlugin × Option Error) (m : String × JsonValue) :
    InstalledPlugin × Option Error :=
  if fieldMatch m.1 "id" then
    let r := decodeString m.2 "InstalledPlugin.id" acc.1.Id acc.2
    ({ acc.1 with Id := r.1 }, r.2)
  else if fieldMatch m.1 "info" then
    let r := decodeInfo m.2 acc.1.Info acc.2
    ({ acc.1 with Info := r.1 }, r.2)
  else ({ acc.1 with Extra := acc.1.Extra ++ [m] }, acc.2)

/-- What `ReadPlugin` does with the manifest bytes once they are read (lines after
the read): decode, default the version, check the identifier. -/
def decodeManifest (unmarshal : Unmarshal InstalledPlugin) (pluginDir pluginName data : String) :
    InstalledPlugin × Option Error :=
  let res := (unmarshal data InstalledPlugin.zero).1
  let res :=
    if res.Info.Version = "" then { res with Info := { res.Info with Version := "0.0.0" } }
    else res
  if res.Id = "" then
    (InstalledPlugin.zero,
      some (errorsNew ("could not find plugin " ++ pluginName ++ " in " ++ pluginDir)))
  else (res, none)

/-! ## Lemmas on `path.Clean` -/

/-- The iteration bound of `cleanLoop` does not matter once it covers the input. -/
theorem cleanLoop_fuel (rooted : Bool) :
    ∀ (f₁ f₂ : Nat) (rest out : List Char) (dotdot : Nat),
      rest.length ≤ f₁ → rest.length ≤ f₂ →
      cleanLoop rooted f₁ rest out dotdot = cleanLoop rooted f₂ rest out dotdot := by
  intro f₁
  induction f₁ with
  | zero =>
    intro f₂ rest out dotdot h₁ _
    have : rest = [] := List.length_eq_zero.mp (Nat.le_zero.mp h₁)
    subst this
    cases f₂ <;> simp [cleanLoop]
  | succ n ih =>
    intro f₂ rest out dotdot h₁ h₂
    cases f₂ with
    | zero =>
      have : rest = [] := List.length_eq_zero.mp (Nat.le_zero.mp h₂)
      subst this
      simp [cleanLoop]
    | succ m =>
      cases rest with
      | nil => simp [cleanLoop]
      | cons c t =>
        simp only [List.length_cons, Nat.add_le_add_iff_right] at h₁ h₂
        have htail : t.tail.length ≤ t.length := by simp
        by_cases hc : c = '/'
        · subst hc
          simp only [cleanLoop, if_true]
          exact ih m t out dotdot h₁ h₂
        · have hdrop : ((c :: t).dropWhile (fun x => decide (x ≠ '/'))).length ≤ t.length := by
            rw [List.dropWhile_cons_of_pos (by simpa using hc)]
            exact (List.dropWhile_sublist _).length_le
          simp only [cleanLoop]
          rw [ih m t out dotdot h₁ h₂,
            ih m t.tail (backtrack out dotdot) dotdot (htail.trans h₁) (htail.trans h₂),
            ih m t.tail _ _ (htail.trans h₁) (htail.trans h₂),
            ih m t.tail out dotdot (htail.trans h₁) (htail.trans h₂),
            ih m _ _ dotdot (hdrop.trans h₁) (hdrop.trans h₂)]

theorem cleanRun_nil (rooted : Bool) (st : List Char × Nat) : cleanRun rooted [] st = st := by
  simp [cleanRun, cleanLoop]

/-- One iteration of the loop, in terms of complete runs. -/
theorem cleanRun_cons (rooted : Bool) (c : Char) (t : List Char) (st : List Char × Nat) :
    cleanRun rooted (c :: t) st =
      if c = '/' then cleanRun rooted t st
      else if c = '.' ∧ (t = [] ∨ t.head? = some '/') then cleanRun rooted t st
      else if c = '.' ∧ t.head? = some '.' ∧ (t.tail = [] ∨ t.tail.head? = some '/') then
        if st.1.length > st.2 then cleanRun rooted t.tail (backtrack st.1 st.2, st.2)
        else if rooted = false then
          cleanRun rooted t.tail
            ((if st.1.length > 0 then st.1 ++ ['/'] else st.1) ++ ['.', '.'],
              ((if st.1.length > 0 then st.1 ++ ['/'] else st.1) ++ ['.', '.']).length)
        else cleanRun rooted t.tail st
      else
        cleanRun rooted (t.dropWhile (fun x => x ≠ '/'))
          ((if (rooted = true ∧ st.1.length ≠ 1) ∨ (rooted = false ∧ st.1.length ≠ 0)
              then st.1 ++ ['/'] else st.1) ++ c :: t.takeWhile (fun x => x ≠ '/'), st.2) := by
  have htail : t.tail.length ≤ t.length := by simp
  have hdrop : (t.dropWhile (fun x => decide (x ≠ '/'))).length ≤ t.length :=
    (List.dropWhile_sublist _).length_le
  by_cases hc : c = '/'
  · subst hc
    simp [cleanRun, cleanLoop]
  · have hd : (c :: t).dropWhile (fun x => decide (x ≠ '/'))
        = t.dropWhile (fun x => decide (x ≠ '/')) :=
      List.dropWhile_cons_of_pos (by simpa using hc)
    have ht : (c :: t).takeWhile (fun x => decide (x ≠ '/'))
        = c :: t.takeWhile (fun x => decide (x ≠ '/')) :=
      List.takeWhile_cons_of_pos (by simpa using hc)
    simp only [cleanRun, List.length_cons, cleanLoop, hd, ht, if_neg hc]
    rw [cleanLoop_fuel rooted t.length t.tail.length t.tail _ _ htail le_rfl,
      cleanLoop_fuel rooted t.length t.tail.length t.tail _ _ htail le_rfl,
      cleanLoop_fuel rooted t.length t.tail.length t.tail _ _ htail le_rfl,
      cleanLoop_fuel rooted t.length _ (t.dropWhile (fun x => decide (x ≠ '/'))) _ _ hdrop le_rfl]

theorem takeWhile_append_slash (e ys : List Char) (he : '/' ∉ e) :
    (e ++ '/' :: ys).takeWhile (fun x => decide (x ≠ '/')) = e := by
  induction e with
  | nil => simp
  | cons c t ih =>
    have hc : c ≠ '/' := fun h => he (by simp [h])
    have ht : '/' ∉ t := fun h => he (by simp [h])
    rw [List.cons_append, List.takeWhile_cons_of_pos (by simpa using hc), ih ht]

theorem dropWhile_append_slash (e ys : List Char) (he : '/' ∉ e) :
    (e ++ '/' :: ys).dropWhile (fun x => decide (x ≠ '/')) = '/' :: ys := by
  induction e with
  | nil => simp
  | cons c t ih =>
    have hc : c ≠ '/' := fun h => he (by simp [h])
    have ht : '/' ∉ t := fun h => he (by simp [h])
    rw [List.cons_append, List.dropWhile_cons_of_pos (by simpa using hc), ih ht]

theorem takeWhile_no_slash (e : List Char) (he : '/' ∉ e) :
    e.takeWhile (fun x => decide (x ≠ '/')) = e := by
  induction e with
  | nil => simp
  | cons c t ih =>
    have hc : c ≠ '/' := fun h => he (by simp [h])
    have ht : '/' ∉ t := fun h => he (by simp [h])
    rw [List.takeWhile_cons_of_pos (by simpa using hc), ih ht]

theorem dropWhile_no_slash (e : List Char) (he : '/' ∉ e) :
    e.dropWhile (fun x => decide (x ≠ '/')) = [] := by
  induction e with
  | nil => simp
  | cons c t ih =>
    have hc : c ≠ '/' := fun h => he (by simp [h])
    have ht : '/' ∉ t := fun h => he (by simp [h])
    rw [List.dropWhile_cons_of_pos (by simpa using hc), ih ht]

theorem cleanRun_slash (rooted : Bool) (ys : List Char) (st : List Char × Nat) :
    cleanRun rooted ('/' :: ys) st = cleanRun rooted ys st := by
  rw [cleanRun_cons]; simp

/-- The loop on an element followed by a slash: the element is processed, then the
run goes on behind the slash. -/
theorem cleanRun_elem_slash (rooted : Bool) (e ys : List Char) (st : List Char × Nat)
    (he : '/' ∉ e) :
    cleanRun rooted (e ++ '/' :: ys) st = cleanRun rooted ys (stepElem rooted e st) := by
  cases e with
  | nil => simp [cleanRun_slash, stepElem]
  | cons c t =>
    have hc : c ≠ '/' := fun h => he (by simp [h])
    have ht : '/' ∉ t := fun h => he (by simp [h])
    rw [List.cons_append, cleanRun_cons, if_neg hc, takeWhile_append_slash t ys ht,
      dropWhile_append_slash t ys ht]
    cases t with
    | nil =>
      by_cases hdot : c = '.'
      · subst hdot
        simp [cleanRun_slash, stepElem]
      · simp [hdot, cleanRun_slash, stepElem]
    | cons d t' =>
      have hd : d ≠ '/' := fun h => ht (by simp [h])
      have ht' : '/' ∉ t' := fun h => ht (by simp [h])
      cases t' with
      | nil =>
        by_cases hdot : c = '.'
        · subst hdot
          by_cases hdot2 : d = '.'
          · subst hdot2
            simp [cleanRun_slash, stepElem]
            split_ifs <;> rfl
          · simp [hd, hdot2, cleanRun_slash, stepElem]
        · simp [hdot, cleanRun_slash, stepElem]
      | cons x t'' =>
        have hx : x ≠ '/' := fun h => ht' (by simp [h])
        simp [hd, hx, cleanRun_slash, stepElem]

/-- The loop on a last element. -/
theorem cleanRun_elem (rooted : Bool) (e : List Char) (st : List Char × Nat) (he : '/' ∉ e) :
    cleanRun rooted e st = stepElem rooted e st := by
  cases e with
  | nil => simp [cleanRun_nil, stepElem]
  | cons c t =>
    have hc : c ≠ '/' := fun h => he (by simp [h])
    have ht : '/' ∉ t := fun h => he (by simp [h])
    rw [cleanRun_cons, if_neg hc, takeWhile_no_slash t ht, dropWhile_no_slash t ht]
    cases t with
    | nil =>
      by_cases hdot : c = '.'
      · subst hdot
        simp [cleanRun_nil, stepElem]
      · simp [hdot, cleanRun_nil, stepElem]
    | cons d t' =>
      have hd : d ≠ '/' := fun h => ht (by simp [h])
      have ht' : '/' ∉ t' := fun h => ht (by simp [h])
      cases t' with
      | nil =>
        by_cases hdot : c = '.'
        · subst hdot
          by_cases hdot2 : d = '.'
          · subst hdot2
            simp [cleanRun_nil, stepElem]
          · simp [hd, hdot2, cleanRun_nil, stepElem]
        · simp [hdot, cleanRun_nil, stepElem]
      | cons x t'' =>
        have hx : x ≠ '/' := fun h => ht' (by simp [h])
        simp [hd, hx, cleanRun_nil, stepElem]

theorem split_at_slash (xs : List Char) :
    '/' ∉ xs ∨ ∃ e xs', '/' ∉ e ∧ xs = e ++ '/' :: xs' := by
  induction xs with
  | nil => exact Or.inl (by simp)
  | cons c t ih =>
    by_cases hc : c = '/'
    · exact Or.inr ⟨[], t, by simp, by simp [hc]⟩
    · rcases ih with h | ⟨e, xs', he, hx⟩
      · exact Or.inl (by simp [h, Ne.symm hc])
      · exact Or.inr ⟨c :: e, xs', by simp [he, Ne.symm hc], by simp [hx]⟩

/-- The loop on `xs/ys` is the loop on `ys` started where the loop on `xs` ends. -/
theorem cleanRun_append_slash (rooted : Bool) (xs ys : List Char) (st : List Char × Nat) :
    cleanRun rooted (xs ++ '/' :: ys) st = cleanRun rooted ys (cleanRun rooted xs st) := by
  suffices H : ∀ (n : Nat) (xs : List Char) (st : List Char × Nat), xs.length = n →
      cleanRun rooted (xs ++ '/' :: ys) st = cleanRun rooted ys (cleanRun rooted xs st) from
    H xs.length xs st rfl
  intro n
  induction n using Nat.strong_induction_on with
  | _ n ih =>
    intro xs st h
    rcases split_at_slash xs with hx | ⟨e, xs', he, hx⟩
    · rw [cleanRun_elem_slash rooted xs ys st hx, cleanRun_elem rooted xs st hx]
    · subst hx
      have hlt : xs'.length < n := by
        rw [← h]; simp; omega
      rw [List.append_assoc, List.cons_append, cleanRun_elem_slash rooted e _ st he,
        ih xs'.length hlt xs' _ rfl, cleanRun_elem_slash rooted e xs' st he]

/-- `path.Clean` of a non-empty path in terms of complete runs of the loop. -/
theorem cleanChars_eq (path : List Char) (h : path ≠ []) :
    cleanChars path = finish (endState path).1 := by
  cases path with
  | nil => exact absurd rfl h
  | cons c t =>
    by_cases hc : c = '/'
    · subst hc
      have hf := cleanLoop_fuel true (t.length + 1) t.length t ['/'] 1 (Nat.le_succ _) le_rfl
      simp [cleanChars, cleanRun, endState, isRooted, finish, hf]
    · simp [cleanChars, cleanRun, endState, isRooted, finish, hc]

theorem endState_append_slash (b rest : List Char) (hb : b ≠ []) :
    endState (b ++ '/' :: rest) = cleanRun (isRooted b) rest (endState b) := by
  cases b with
  | nil => exact absurd rfl hb
  | cons c t =>
    by_cases hc : c = '/'
    · subst hc
      simp only [endState, isRooted, List.cons_append, List.head?_cons, decide_True, if_true,
        List.tail_cons]
      exact cleanRun_append_slash true t rest _
    · have hr : isRooted (c :: t) = false := by simp [isRooted, hc]
      have hr' : isRooted (c :: t ++ '/' :: rest) = false := by simp [isRooted, hc]
      simp only [endState, hr, hr']
      exact cleanRun_append_slash false (c :: t) rest _

theorem endState_slash (rest : List Char) :
    endState ('/' :: rest) = cleanRun true rest (['/'], 1) := by
  simp [endState, isRooted]

/-- An ordinary element is copied behind the buffer, after a slash where needed. -/
theorem stepElem_ordinary (rooted : Bool) (e : List Char) (st : List Char × Nat)
    (h₀ : e ≠ []) (h₁ : e ≠ ['.']) (h₂ : e ≠ ['.', '.']) :
    stepElem rooted e st =
      ((if (rooted = true ∧ st.1.length ≠ 1) ∨ (rooted = false ∧ st.1.length ≠ 0)
          then st.1 ++ ['/'] else st.1) ++ e, st.2) := by
  simp [stepElem, h₀, h₁, h₂]

theorem sepLen_le (rooted : Bool) (n : Nat) : sepLen rooted n ≤ 1 := by
  unfold sepLen; split_ifs <;> omega

theorem sepLen_after (rooted : Bool) (n k : Nat) (hk : 1 ≤ k) :
    sepLen rooted (n + sepLen rooted n + k) = 1 := by
  cases rooted
  · unfold sepLen
    rw [if_pos]
    exact Or.inr ⟨rfl, by omega⟩
  · have h : n + sepLen true n + k ≠ 1 := by
      by_cases hn : n = 1
      · omega
      · have hs : sepLen true n = 1 := by
          unfold sepLen
          rw [if_pos (Or.inl ⟨rfl, hn⟩)]
        omega
    conv_lhs => unfold sepLen
    rw [if_pos (Or.inl ⟨rfl, h⟩)]

theorem length_stepElem_ordinary (rooted : Bool) (e : List Char) (st : List Char × Nat)
    (he : Ordinary e) :
    (stepElem rooted e st).1.length = st.1.length + sepLen rooted st.1.length + e.length := by
  rw [stepElem_ordinary rooted e st he.1 he.2.2.1 he.2.2.2]
  unfold sepLen
  split_ifs
  · simp only [List.length_append, List.length_cons, List.length_nil]
  · simp only [List.length_append]; omega

theorem length_pos_of_ordinary (e : List Char) (he : Ordinary e) : 0 < e.length :=
  List.length_pos.mpr he.1

/-- From any state, the two elements `d/p` leave a longer buffer than `p` alone. -/
theorem stepElem_two_vs_one (rooted : Bool) (d p : List Char) (st : List Char × Nat)
    (hd : Ordinary d) (hp : Ordinary p) :
    (stepElem rooted p (stepElem rooted d st)).1.length
      = (stepElem rooted p st).1.length + d.length + 1
    ∧ (stepElem rooted p st).1.length ≠ 0 := by
  have ld := length_pos_of_ordinary d hd
  have lp := length_pos_of_ordinary p hp
  rw [length_stepElem_ordinary rooted p _ hp, length_stepElem_ordinary rooted d _ hd,
    length_stepElem_ordinary rooted p _ hp, sepLen_after rooted st.1.length d.length ld]
  omega

theorem finish_two_ne_one (rooted : Bool) (d p : List Char) (st : List Char × Nat)
    (hd : Ordinary d) (hp : Ordinary p) :
    finish (stepElem rooted p (stepElem rooted d st)).1 ≠ finish (stepElem rooted p st).1 := by
  obtain ⟨k1, k2⟩ := stepElem_two_vs_one rooted d p st hd hp
  unfold finish
  rw [if_neg k2, if_neg (by omega)]
  intro h
  have hl := congrArg List.length h
  omega

/-- Behind any path, `d/p` and `p` alone never clean to the same path, for ordinary
elements `d` and `p`. -/
theorem cleanChars_two_ne_one (b d p : List Char) (hd : Ordinary d) (hp : Ordinary p) :
    cleanChars (b ++ '/' :: (d ++ '/' :: p)) ≠ cleanChars (b ++ '/' :: p) := by
  rw [cleanChars_eq _ (by simp), cleanChars_eq _ (by simp)]
  cases b with
  | nil =>
    rw [List.nil_append, List.nil_append, endState_slash, endState_slash,
      cleanRun_elem_slash true d p _ hd.2.1, cleanRun_elem true p _ hp.2.1,
      cleanRun_elem true p _ hp.2.1]
    exact finish_two_ne_one true d p _ hd hp
  | cons c t =>
    rw [endState_append_slash (c :: t) _ (by simp), endState_append_slash (c :: t) _ (by simp),
      cleanRun_elem_slash _ d p _ hd.2.1, cleanRun_elem _ p _ hp.2.1,
      cleanRun_elem _ p _ hp.2.1]
    exact finish_two_ne_one _ d p _ hd hp

/-! ### Clean buffers -/

theorem render_snoc (es : List (List Char)) (e : List Char) :
    render (es ++ [e]) = if es = [] then e else render es ++ '/' :: e := by
  induction es with
  | nil => simp [render]
  | cons a t ih =>
    cases t with
    | nil => simp [render]
    | cons b t' =>
      have : (a :: b :: t') ++ [e] = a :: (b :: (t' ++ [e])) := rfl
      rw [this, render]
      have ih' : render (b :: (t' ++ [e])) = render (b :: t') ++ '/' :: e := by
        simpa using ih
      rw [ih']
      simp [render]

theorem render_eq_nil (es : List (List Char)) (h : ∀ e ∈ es, e ≠ []) :
    render es = [] ↔ es = [] := by
  cases es with
  | nil => simp [render]
  | cons a t =>
    have ha : a ≠ [] := h a (by simp)
    cases t with
    | nil => simp [render, ha]
    | cons b t' => simp [render]

theorem length_render_append_le (as bs : List (List Char)) :
    (render as).length ≤ (render (as ++ bs)).length := by
  induction bs using List.reverseRecOn with
  | nil => simp
  | append_singleton bs b ih =>
    rw [← List.append_assoc, render_snoc]
    split_ifs with h
    · have : as = [] := (List.append_eq_nil.mp h).1
      subst this
      simp [render]
    · simp only [List.length_append, List.length_cons]
      omega

/-- The inner loop of the backtrack stops at `m` when it starts inside a run
without `/` that begins right behind `m`. -/
theorem backtrackLoop_eq (buf : List Char) (dotdot m : Nat) (hm : dotdot ≤ m)
    (hstop : m = dotdot ∨ buf.get? m = some '/') :
    ∀ j, (∀ i, m < i → i ≤ m + j → buf.get? i ≠ some '/') →
      backtrackLoop buf dotdot (m + j) = m := by
  intro j
  induction j with
  | zero =>
    intro _
    cases m with
    | zero => rfl
    | succ m' =>
      simp only [Nat.add_zero, backtrackLoop]
      rw [if_neg]
      rintro ⟨h1, h2⟩
      rcases hstop with h | h
      · omega
      · exact h2 h
  | succ j ih =>
    intro hrun
    have e : m + (j + 1) = (m + j) + 1 := by omega
    rw [e, backtrackLoop, if_pos ⟨by omega, hrun (m + j + 1) (by omega) (by omega)⟩]
    exact ih (fun i h1 h2 => hrun i h1 (by omega))

theorem get?_append_run (p l : List Char) (hl : '/' ∉ l) (i : Nat) (hi : p.length ≤ i) :
    (p ++ l).get? i ≠ some '/' := by
  intro h
  rw [List.get?_eq_getElem?, List.getElem?_append_right hi] at h
  exact hl (List.getElem?_mem h)

/-- Backtracking over a last element that starts the buffer part above `dotdot`. -/
theorem backtrack_first (p l : List Char) (hl : '/' ∉ l) (hne : l ≠ []) :
    backtrack (p ++ l) p.length = p := by
  have hlen : 0 < l.length := List.length_pos.mpr hne
  have e : (p ++ l).length - 1 = p.length + (l.length - 1) := by
    simp only [List.length_append]; omega
  rw [backtrack, e,
    backtrackLoop_eq (p ++ l) p.length p.length le_rfl (Or.inl rfl) (l.length - 1)
      (fun i h1 _ => get?_append_run p l hl i (by omega))]
  simp

/-- Backtracking over a last element that follows a `/`. -/
theorem backtrack_next (p l : List Char) (dotdot : Nat) (hd : dotdot ≤ p.length)
    (hl : '/' ∉ l) :
    backtrack (p ++ '/' :: l) dotdot = p := by
  have e : (p ++ '/' :: l).length - 1 = p.length + l.length := by
    simp only [List.length_append, List.length_cons]; omega
  have hs : (p ++ '/' :: l).get? p.length = some '/' := by
    rw [List.get?_eq_getElem?, List.getElem?_append_right le_rfl]
    simp
  rw [backtrack, e,
    backtrackLoop_eq (p ++ '/' :: l) dotdot p.length hd (Or.inr hs) l.length
      (fun i h1 _ => by
        have := get?_append_run (p ++ ['/']) l hl i (by simp; omega)
        simpa using this)]
  simp

theorem elems_ne_nil (k : Nat) (es : List (List Char)) (hes : ∀ e ∈ es, Ordinary e) :
    ∀ e ∈ List.replicate k ['.', '.'] ++ es, e ≠ [] := by
  intro e he
  rcases List.mem_append.mp he with h | h
  · rw [(List.mem_replicate.mp h).2]; simp
  · exact (hes e h).1

theorem length_rootOf_le (rooted : Bool) : (rootOf rooted).length ≤ 1 := by
  cases rooted <;> simp [rootOf]

theorem stepElem_stateOf_ordinary (rooted : Bool) (k : Nat) (es : List (List Char))
    (e : List Char) (he : Ordinary e) (hes : ∀ x ∈ es, Ordinary x) :
    stepElem rooted e (stateOf rooted k es) = stateOf rooted k (es ++ [e]) := by
  rw [stepElem_ordinary rooted e _ he.1 he.2.2.1 he.2.2.2]
  have hnil := render_eq_nil _ (elems_ne_nil k es hes)
  simp only [stateOf, ← List.append_assoc (List.replicate k ['.', '.']) es [e], render_snoc]
  congr 1
  by_cases hL : List.replicate k ['.', '.'] ++ es = []
  · rw [if_pos hL, hL]
    cases rooted <;> simp [rootOf, render]
  · rw [if_neg hL]
    have hr : render (List.replicate k ['.', '.'] ++ es) ≠ [] := fun h => hL (hnil.mp h)
    have hlen : 0 < (render (List.replicate k ['.', '.'] ++ es)).length :=
      List.length_pos.mpr hr
    cases rooted
    · rw [if_pos (Or.inr ⟨rfl, by simp [rootOf]; exact hr⟩)]
      simp
    · rw [if_pos (Or.inl ⟨rfl, by simp [rootOf]; exact hr⟩)]
      simp

theorem stepElem_stateOf_grow (k : Nat) :
    stepElem false ['.', '.'] (stateOf false k []) = stateOf false (k + 1) [] := by
  have hnil := render_eq_nil _ (elems_ne_nil k [] (by simp))
  simp only [List.append_nil] at hnil
  simp only [stepElem, stateOf, rootOf, List.replicate_succ', render_snoc, List.append_nil,
    List.nil_append]
  by_cases hk : List.replicate k ['.', '.'] = []
  · simp [hk, render]
  · have hr : render (List.replicate k ['.', '.']) ≠ [] := fun h => hk (hnil.mp h)
    have hlen : 0 < (render (List.replicate k ['.', '.'])).length := List.length_pos.mpr hr
    simp [hk, hlen]

theorem stepElem_stateOf_root :
    stepElem true ['.', '.'] (stateOf true 0 []) = stateOf true 0 [] := by
  simp [stepElem, stateOf, rootOf, render]

theorem stepElem_stateOf_back (rooted : Bool) (k : Nat) (es : List (List Char))
    (l : List Char) (hl : Ordinary l) :
    stepElem rooted ['.', '.'] (stateOf rooted k (es ++ [l])) = stateOf rooted k es := by
  have hgt : (stateOf rooted k (es ++ [l])).1.length > (stateOf rooted k (es ++ [l])).2 := by
    have := length_render_append_le (List.replicate k ['.', '.']) es
    have hlen := length_pos_of_ordinary l hl
    simp only [stateOf, ← List.append_assoc (List.replicate k ['.', '.']) es [l], render_snoc]
    split_ifs with h
    · rw [(List.append_eq_nil.mp h).1]
      simp [render]; omega
    · simp only [List.length_append, List.length_cons]; omega
  have hstep : stepElem rooted ['.', '.'] (stateOf rooted k (es ++ [l]))
      = (backtrack (stateOf rooted k (es ++ [l])).1 (stateOf rooted k (es ++ [l])).2,
          (stateOf rooted k (es ++ [l])).2) := by
    simp [stepElem, hgt]
  rw [hstep]
  simp only [stateOf, ← List.append_assoc (List.replicate k ['.', '.']) es [l], render_snoc]
  congr 1
  by_cases hL : List.replicate k ['.', '.'] ++ es = []
  · rw [if_pos hL, hL, (List.append_eq_nil.mp hL).1]
    simp only [render, List.append_nil]
    exact backtrack_first (rootOf rooted) l hl.2.1 hl.1
  · rw [if_neg hL, ← List.append_assoc]
    refine backtrack_next _ l _ ?_ hl.2.1
    have := length_render_append_le (List.replicate k ['.', '.']) es
    simp only [List.length_append]; omega

theorem stepElem_cleanState (rooted : Bool) (e : List Char) (st : List Char × Nat)
    (hst : CleanState rooted st) (he : '/' ∉ e) : CleanState rooted (stepElem rooted e st) := by
  obtain ⟨k, es, hk, hes, rfl⟩ := hst
  by_cases h0 : e = [] ∨ e = ['.']
  · have : stepElem rooted e (stateOf rooted k es) = stateOf rooted k es := by
      simp [stepElem, h0]
    rw [this]
    exact ⟨k, es, hk, hes, rfl⟩
  · by_cases h2 : e = ['.', '.']
    · subst h2
      rcases List.eq_nil_or_concat es with h | ⟨es', l, h⟩
      · subst h
        cases rooted
        · rw [stepElem_stateOf_grow]
          exact ⟨k + 1, [], by simp, by simp, rfl⟩
        · have hk0 : k = 0 := hk rfl
          subst hk0
          rw [stepElem_stateOf_root]
          exact ⟨0, [], by simp, by simp, rfl⟩
      · rw [List.concat_eq_append] at h
        subst h
        rw [stepElem_stateOf_back rooted k es' l (hes l (by simp))]
        exact ⟨k, es', hk, fun x hx => hes x (by simp [hx]), rfl⟩
    · have ho : Ordinary e := ⟨fun h => h0 (Or.inl h), he, fun h => h0 (Or.inr h), h2⟩
      rw [stepElem_stateOf_ordinary rooted k es e ho hes]
      refine ⟨k, es ++ [e], hk, ?_, rfl⟩
      intro x hx
      rcases List.mem_append.mp hx with h | h
      · exact hes x h
      · rw [List.mem_singleton.mp h]; exact ho

theorem cleanRun_cleanState (rooted : Bool) (xs : List Char) (st : List Char × Nat)
    (hst : CleanState rooted st) : CleanState rooted (cleanRun rooted xs st) := by
  suffices H : ∀ (n : Nat) (xs : List Char) (st : List Char × Nat), xs.length = n →
      CleanState rooted st → CleanState rooted (cleanRun rooted xs st) from
    H xs.length xs st rfl hst
  intro n
  induction n using Nat.strong_induction_on with
  | _ n ih =>
    intro xs st h hst
    rcases split_at_slash xs with hx | ⟨e, xs', he, hx⟩
    · rw [cleanRun_elem rooted xs st hx]
      exact stepElem_cleanState rooted xs st hst hx
    · subst hx
      have hlt : xs'.length < n := by
        rw [← h]; simp; omega
      rw [cleanRun_elem_slash rooted e xs' st he]
      exact ih xs'.length hlt xs' _ rfl (stepElem_cleanState rooted e st hst he)

theorem cleanState_init (rooted : Bool) : CleanState rooted (stateOf rooted 0 []) :=
  ⟨0, [], fun _ => rfl, by simp, rfl⟩

theorem endState_cleanState (path : List Char) :
    CleanState (isRooted path) (endState path) := by
  unfold endState
  cases h : isRooted path
  · exact cleanRun_cleanState false path _ (cleanState_init false)
  · exact cleanRun_cleanState true path.tail _ (cleanState_init true)

theorem cleanRun_render_snoc (rooted : Bool) (es : List (List Char)) (e : List Char)
    (st : List Char × Nat) (he : '/' ∉ e) :
    cleanRun rooted (render (es ++ [e])) st
      = stepElem rooted e (cleanRun rooted (render es) st) := by
  rw [render_snoc]
  split_ifs with h
  · subst h
    rw [render, cleanRun_nil, cleanRun_elem rooted e st he]
  · rw [cleanRun_append_slash, cleanRun_elem rooted e _ he]

/-- Running the loop over a clean buffer rebuilds that buffer. -/
theorem cleanRun_render (rooted : Bool) (k : Nat) (es : List (List Char))
    (hk : rooted = true → k = 0) (hes : ∀ e ∈ es, Ordinary e) :
    cleanRun rooted (render (List.replicate k ['.', '.'] ++ es)) (stateOf rooted 0 [])
      = stateOf rooted k es := by
  induction es using List.reverseRecOn with
  | nil =>
    simp only [List.append_nil]
    induction k with
    | zero => simp [render, cleanRun_nil]
    | succ k ih =>
      cases rooted
      · rw [List.replicate_succ', cleanRun_render_snoc false _ _ _ (by decide),
          ih (by simp), stepElem_stateOf_grow]
      · exact absurd (hk rfl) (by omega)
  | append_singleton es e ih =>
    have he : Ordinary e := hes e (by simp)
    have hes' : ∀ x ∈ es, Ordinary x := fun x hx => hes x (by simp [hx])
    rw [← List.append_assoc, cleanRun_render_snoc rooted _ e _ he.2.1, ih hes',
      stepElem_stateOf_ordinary rooted k es e he hes']

theorem head?_render (es : List (List Char)) (h : ∀ e ∈ es, e ≠ [] ∧ '/' ∉ e) :
    (render es).head? ≠ some '/' := by
  cases es with
  | nil => simp [render]
  | cons a t =>
    obtain ⟨ha, hs⟩ := h a (by simp)
    cases a with
    | nil => exact absurd rfl ha
    | cons c a' =>
      have hc : c ≠ '/' := fun hc => hs (by simp [hc])
      cases t with
      | nil => simpa [render] using hc
      | cons b t' => simpa [render] using hc

/-- A non-empty buffer that the loop has built is a fixed point of the loop. -/
theorem endState_of_cleanState (rooted : Bool) (st : List Char × Nat)
    (hst : CleanState rooted st) (hne : st.1 ≠ []) :
    isRooted st.1 = rooted ∧ endState st.1 = st := by
  obtain ⟨k, es, hk, hes, rfl⟩ := hst
  cases rooted
  · have hr : isRooted (stateOf false k es).1 = false := by
      have := head?_render (List.replicate k ['.', '.'] ++ es) (by
        intro e he
        rcases List.mem_append.mp he with h | h
        · rw [(List.mem_replicate.mp h).2]; decide
        · exact ⟨(hes e h).1, (hes e h).2.1⟩)
      simpa [isRooted, stateOf, rootOf] using this
    refine ⟨hr, ?_⟩
    have h0 : (([] : List Char), 0) = stateOf false 0 [] := by simp [stateOf, rootOf, render]
    rw [endState, hr]
    simp only [Bool.false_eq_true, if_false]
    rw [h0]
    have e1 : (stateOf false k es).1 = render (List.replicate k ['.', '.'] ++ es) := by
      simp [stateOf, rootOf]
    rw [e1]
    exact cleanRun_render false k es hk hes
  · have hk0 : k = 0 := hk rfl
    subst hk0
    have e1 : (stateOf true 0 es).1 = '/' :: render es := by simp [stateOf, rootOf]
    have hr : isRooted (stateOf true 0 es).1 = true := by rw [e1]; simp [isRooted]
    refine ⟨hr, ?_⟩
    have h0 : (['/'], 1) = stateOf true 0 [] := by simp [stateOf, rootOf, render]
    rw [endState, hr, if_pos rfl, e1, List.tail_cons, h0]
    have := cleanRun_render true 0 es hk hes
    simpa using this

theorem finish_of_ne_nil (out : List Char) (h : out ≠ []) : finish out = out := by
  unfold finish
  rw [if_neg (by simpa using h)]

/-- `path.Clean` leaves `c/e` alone when `c` is itself a cleaned path of at least
two bytes and `e` an ordinary element. -/
theorem cleanChars_append_ordinary (x e : List Char) (hx : x ≠ [])
    (hlen : 2 ≤ (cleanChars x).length) (he : Ordinary e) :
    cleanChars (cleanChars x ++ '/' :: e) = cleanChars x ++ '/' :: e := by
  have hst := endState_cleanState x
  rw [cleanChars_eq x hx] at hlen ⊢
  have hne : (endState x).1 ≠ [] := by
    intro h
    rw [h] at hlen
    simp [finish] at hlen
  rw [finish_of_ne_nil _ hne] at hlen ⊢
  obtain ⟨hr, hfix⟩ := endState_of_cleanState _ _ hst hne
  rw [cleanChars_eq _ (by simp), endState_append_slash _ _ hne, hr, hfix,
    cleanRun_elem _ e _ he.2.1]
  obtain ⟨k, es, hk, hes, hE⟩ := hst
  rw [hE] at hlen ⊢
  rw [stepElem_stateOf_ordinary _ k es e he hes]
  have hL : List.replicate k ['.', '.'] ++ es ≠ [] := by
    intro h
    have hroot := length_rootOf_le (isRooted x)
    simp only [stateOf, h, render, List.append_nil] at hlen
    omega
  simp only [stateOf, ← List.append_assoc (List.replicate k ['.', '.']) es [e], render_snoc,
    if_neg hL]
  rw [finish_of_ne_nil _ (by simp)]
  simp

/-- A cleaned path that ends in an ordinary element is at least as long as it. -/
theorem length_cleanChars_ordinary (b e : List Char) (he : Ordinary e) :
    e.length ≤ (cleanChars (b ++ '/' :: e)).length := by
  have hpos := length_pos_of_ordinary e he
  have key : ∀ (rooted : Bool) (st : List Char × Nat),
      e.length ≤ (finish (stepElem rooted e st).1).length := by
    intro rooted st
    have h := length_stepElem_ordinary rooted e st he
    rw [finish_of_ne_nil _ (by
      intro h0
      rw [h0] at h
      simp at h
      omega)]
    omega
  rw [cleanChars_eq _ (by simp)]
  cases b with
  | nil =>
    rw [List.nil_append, endState_slash, cleanRun_elem true e _ he.2.1]
    exact key _ _
  | cons c t =>
    rw [endState_append_slash (c :: t) _ (by simp), cleanRun_elem _ e _ he.2.1]
    exact key _ _

/-- The buffer of `path.Join` for a list of elements followed by one more. -/
theorem joinBuf_snoc (elem : List String) (e : String) :
    joinBuf (elem ++ [e]) =
      if (joinBuf elem).length > 0 ∨ e ≠ "" then
        (if (joinBuf elem).length > 0 then joinBuf elem ++ ['/'] else joinBuf elem) ++ e.data
      else joinBuf elem := by
  simp only [joinBuf, List.foldl_append, List.foldl_cons, List.foldl_nil]

/-- The two manifest paths of `ReadPlugin` are different paths, whatever the
directory and the plugin name. -/
theorem Join_dist_ne_bare (pluginDir pluginName : String) :
    Join [pluginDir, pluginName, "dist", "plugin.json"]
      ≠ Join [pluginDir, pluginName, "plugin.json"] := by
  have hd : joinBuf [pluginDir, pluginName, "dist", "plugin.json"]
      = (if (joinBuf [pluginDir, pluginName]).length > 0
          then joinBuf [pluginDir, pluginName] ++ '/' :: ("dist".data ++ '/' :: "plugin.json".data)
          else "dist".data ++ '/' :: "plugin.json".data) := by
    have e : [pluginDir, pluginName, "dist", "plugin.json"]
        = ([pluginDir, pluginName] ++ ["dist"]) ++ ["plugin.json"] := rfl
    rw [e, joinBuf_snoc, joinBuf_snoc]
    split_ifs <;> simp_all
  have hb : joinBuf [pluginDir, pluginName, "plugin.json"]
      = (if (joinBuf [pluginDir, pluginName]).length > 0
          then joinBuf [pluginDir, pluginName] ++ '/' :: "plugin.json".data
          else "plugin.json".data) := by
    have e : [pluginDir, pluginName, "plugin.json"]
        = [pluginDir, pluginName] ++ ["plugin.json"] := rfl
    rw [e, joinBuf_snoc]
    split_ifs <;> simp_all
  have l₁ : "dist".length = 4 := by decide
  have l₂ : "plugin.json".length = 11 := by decide
  have hsz₁ : ¬ (([pluginDir, pluginName, "dist", "plugin.json"] : List String).map
      String.length).sum = 0 := by
    simp only [List.map, List.sum_cons, List.sum_nil, l₁, l₂]
    omega
  have hsz₂ : ¬ (([pluginDir, pluginName, "plugin.json"] : List String).map
      String.length).sum = 0 := by
    simp only [List.map, List.sum_cons, List.sum_nil, l₂]
    omega
  intro h
  simp only [Join, if_neg hsz₁, if_neg hsz₂] at h
  have h' := congrArg String.data h
  simp only [hd, hb] at h'
  by_cases hlen : (joinBuf [pluginDir, pluginName]).length > 0
  · rw [if_pos hlen, if_pos hlen] at h'
    exact cleanChars_two_ne_one (joinBuf [pluginDir, pluginName]) "dist".data
      "plugin.json".data (by decide) (by decide) h'
  · rw [if_neg hlen, if_neg hlen] at h'
    revert h'
    decide

/-! ### Paths element by element -/

theorem splitSlash_of_no_slash (e : List Char) (he : '/' ∉ e) : splitSlash e = [e] := by
  induction e with
  | nil => rfl
  | cons c t ih =>
    have hc : c ≠ '/' := fun h => he (by simp [h])
    have ht : '/' ∉ t := fun h => he (by simp [h])
    simp [splitSlash, hc, ih ht]

theorem splitSlash_append_slash (e xs : List Char) (he : '/' ∉ e) :
    splitSlash (e ++ '/' :: xs) = e :: splitSlash xs := by
  induction e with
  | nil => simp [splitSlash]
  | cons c t ih =>
    have hc : c ≠ '/' := fun h => he (by simp [h])
    have ht : '/' ∉ t := fun h => he (by simp [h])
    simp [splitSlash, hc, ih ht]

/-- The loop of `path.Clean` handles the elements of the path one by one. -/
theorem cleanRun_eq_foldl (rooted : Bool) (xs : List Char) (st : List Char × Nat) :
    cleanRun rooted xs st = (splitSlash xs).foldl (fun s e => stepElem rooted e s) st := by
  suffices H : ∀ (n : Nat) (xs : List Char) (st : List Char × Nat), xs.length = n →
      cleanRun rooted xs st = (splitSlash xs).foldl (fun s e => stepElem rooted e s) st from
    H xs.length xs st rfl
  intro n
  induction n using Nat.strong_induction_on with
  | _ n ih =>
    intro xs st h
    rcases split_at_slash xs with hx | ⟨e, xs', he, hx⟩
    · rw [cleanRun_elem rooted xs st hx, splitSlash_of_no_slash xs hx]
      rfl
    · subst hx
      have hlt : xs'.length < n := by
        rw [← h]; simp; omega
      rw [cleanRun_elem_slash rooted e xs' st he, splitSlash_append_slash e xs' he,
        ih xs'.length hlt xs' _ rfl]
      rfl

theorem no_slash_of_mem_splitSlash (xs : List Char) : ∀ e ∈ splitSlash xs, '/' ∉ e := by
  suffices H : ∀ (n : Nat) (xs : List Char), xs.length = n →
      ∀ e ∈ splitSlash xs, '/' ∉ e from H xs.length xs rfl
  intro n
  induction n using Nat.strong_induction_on with
  | _ n ih =>
    intro xs h e hmem
    rcases split_at_slash xs with hx | ⟨e', xs', he', hx⟩
    · rw [splitSlash_of_no_slash xs hx, List.mem_singleton] at hmem
      rw [hmem]; exact hx
    · subst hx
      have hlt : xs'.length < n := by
        rw [← h]; simp; omega
      rw [splitSlash_append_slash e' xs' he', List.mem_cons] at hmem
      rcases hmem with h1 | h1
      · rw [h1]; exact he'
      · exact ih xs'.length hlt xs' rfl e h1

/-- A `..` element of a path sits between slashes or the ends of the path. -/
theorem dotdot_of_mem_splitSlash (xs : List Char) (h : ['.', '.'] ∈ splitSlash xs) :
    ∃ pre suf, xs = pre ++ ['.', '.'] ++ suf
      ∧ (pre = [] ∨ pre.getLast? = some '/') ∧ (suf = [] ∨ suf.head? = some '/') := by
  suffices H : ∀ (n : Nat) (xs : List Char), xs.length = n → ['.', '.'] ∈ splitSlash xs →
      ∃ pre suf, xs = pre ++ ['.', '.'] ++ suf
        ∧ (pre = [] ∨ pre.getLast? = some '/') ∧ (suf = [] ∨ suf.head? = some '/') from
    H xs.length xs rfl h
  intro n
  induction n using Nat.strong_induction_on with
  | _ n ih =>
    intro xs hn hmem
    rcases split_at_slash xs with hx | ⟨e', xs', he', hx⟩
    · rw [splitSlash_of_no_slash xs hx, List.mem_singleton] at hmem
      exact ⟨[], [], by simp [← hmem], Or.inl rfl, Or.inl rfl⟩
    · subst hx
      have hlt : xs'.length < n := by
        rw [← hn]; simp; omega
      rw [splitSlash_append_slash e' xs' he', List.mem_cons] at hmem
      rcases hmem with h1 | h1
      · exact ⟨[], '/' :: xs', by simp [← h1], Or.inl rfl, Or.inr rfl⟩
      · obtain ⟨pre, suf, hxs, hpre, hsuf⟩ := ih xs'.length hlt xs' rfl h1
        refine ⟨e' ++ '/' :: pre, suf, by simp [hxs], Or.inr ?_, hsuf⟩
        rcases hpre with hp | hp
        · subst hp
          simp
        · have e1 : e' ++ '/' :: pre = (e' ++ ['/']) ++ pre := by simp
          rw [e1, List.getLast?_append, hp]
          rfl

theorem render_append (as bs : List (List Char)) (h : as ≠ []) :
    render (as ++ bs) = render as ++ slashed bs := by
  induction bs generalizing as with
  | nil => simp [slashed]
  | cons b t ih =>
    have e1 : as ++ b :: t = (as ++ [b]) ++ t := by simp
    rw [e1, ih (as ++ [b]) (by simp), render_snoc, if_neg h]
    simp [slashed]

/-- Elements other than `..` append their ordinary ones to a clean state. -/
theorem foldl_stepElem_stateOf (rooted : Bool) (k : Nat) (elems : List (List Char))
    (hns : ∀ e ∈ elems, '/' ∉ e) (hdd : ['.', '.'] ∉ elems) :
    ∀ es : List (List Char), (∀ e ∈ es, Ordinary e) →
      elems.foldl (fun s e => stepElem rooted e s) (stateOf rooted k es)
        = stateOf rooted k (es ++ elems.filter (fun e => decide (e ≠ [] ∧ e ≠ ['.']))) := by
  induction elems with
  | nil => intro es _; simp
  | cons e t ih =>
    intro es hes
    have hns' : ∀ x ∈ t, '/' ∉ x := fun x hx => hns x (by simp [hx])
    have hdd' : ['.', '.'] ∉ t := fun hx => hdd (by simp [hx])
    have hne : e ≠ ['.', '.'] := fun hx => hdd (by simp [hx])
    rw [List.foldl_cons]
    by_cases h0 : e = [] ∨ e = ['.']
    · have hs : stepElem rooted e (stateOf rooted k es) = stateOf rooted k es := by
        simp [stepElem, h0]
      have hf : (e :: t).filter (fun e => decide (e ≠ [] ∧ e ≠ ['.']))
          = t.filter (fun e => decide (e ≠ [] ∧ e ≠ ['.'])) := by
        rw [List.filter_cons_of_neg]
        simp only [decide_eq_true_eq]
        tauto
      rw [hs, hf]
      exact ih hns' hdd' es hes
    · have ho : Ordinary e :=
        ⟨fun h => h0 (Or.inl h), hns e (by simp), fun h => h0 (Or.inr h), hne⟩
      have hf : (e :: t).filter (fun e => decide (e ≠ [] ∧ e ≠ ['.']))
          = e :: t.filter (fun e => decide (e ≠ [] ∧ e ≠ ['.'])) := by
        rw [List.filter_cons_of_pos]
        simp only [decide_eq_true_eq]
        tauto
      rw [stepElem_stateOf_ordinary rooted k es e ho hes, hf,
        ih hns' hdd' (es ++ [e]) (by
          intro x hx
          rcases List.mem_append.mp hx with h | h
          · exact hes x h
          · rw [List.mem_singleton.mp h]; exact ho)]
      simp

theorem head?_slashed (es : List (List Char)) :
    slashed es = [] ∨ (slashed es).head? = some '/' := by
  cases es with
  | nil => exact Or.inl rfl
  | cons e t => exact Or.inr rfl

/-- `path.Clean` of `c/xs`, for `c` a cleaned path of at least two bytes and `xs`
without a `..` element: `c` followed by the ordinary elements of `xs`, each behind
a `/`. -/
theorem cleanChars_append_no_dotdot (x xs : List Char) (hx : x ≠ [])
    (hlen : 2 ≤ (cleanChars x).length) (hdd : ['.', '.'] ∉ splitSlash xs) :
    cleanChars (cleanChars x ++ '/' :: xs)
      = cleanChars x
        ++ slashed ((splitSlash xs).filter (fun e => decide (e ≠ [] ∧ e ≠ ['.']))) := by
  have hst := endState_cleanState x
  rw [cleanChars_eq x hx] at hlen ⊢
  have hne : (endState x).1 ≠ [] := by
    intro h
    rw [h] at hlen
    simp [finish] at hlen
  rw [finish_of_ne_nil _ hne] at hlen ⊢
  obtain ⟨hr, hfix⟩ := endState_of_cleanState _ _ hst hne
  rw [cleanChars_eq _ (by simp), endState_append_slash _ _ hne, hr, hfix, cleanRun_eq_foldl]
  obtain ⟨k, es, hk, hes, hE⟩ := hst
  rw [hE] at hlen ⊢
  rw [foldl_stepElem_stateOf _ k _ (no_slash_of_mem_splitSlash xs) hdd es hes]
  have hL : List.replicate k ['.', '.'] ++ es ≠ [] := by
    intro h
    have hroot := length_rootOf_le (isRooted x)
    simp only [stateOf, h, render, List.append_nil] at hlen
    omega
  simp only [stateOf, ← List.append_assoc (List.replicate k ['.', '.']) es, render_append _ _ hL]
  rw [finish_of_ne_nil _ (by
    intro h
    have hlen' := hlen
    simp only [stateOf] at hlen'
    have := congrArg List.length h
    simp only [List.length_append, List.length_nil] at this hlen'
    omega)]
  simp

/-- `path.Clean` is idempotent. -/
theorem cleanChars_idem (x : List Char) : cleanChars (cleanChars x) = cleanChars x := by
  by_cases hx : x = []
  · subst hx; decide
  · have hst := endState_cleanState x
    rw [cleanChars_eq x hx]
    by_cases hne : (endState x).1 = []
    · rw [hne]; decide
    · rw [finish_of_ne_nil _ hne, cleanChars_eq _ hne,
        (endState_of_cleanState _ _ hst hne).2, finish_of_ne_nil _ hne]

theorem splitSlash_append (xs ys : List Char) :
    splitSlash (xs ++ '/' :: ys) = splitSlash xs ++ splitSlash ys := by
  suffices H : ∀ (n : Nat) (xs : List Char), xs.length = n →
      splitSlash (xs ++ '/' :: ys) = splitSlash xs ++ splitSlash ys from H xs.length xs rfl
  intro n
  induction n using Nat.strong_induction_on with
  | _ n ih =>
    intro xs h
    rcases split_at_slash xs with hx | ⟨e, xs', he, hx⟩
    · rw [splitSlash_append_slash xs ys hx, splitSlash_of_no_slash xs hx]
      rfl
    · subst hx
      have hlt : xs'.length < n := by
        rw [← h]; simp; omega
      rw [List.append_assoc, List.cons_append, splitSlash_append_slash e _ he,
        ih xs'.length hlt xs' rfl, splitSlash_append_slash e xs' he]
      rfl

/-- A path has a `..` element exactly when `..` occurs in it between slashes or the
ends of the path. -/
theorem mem_splitSlash_dotdot_iff (xs : List Char) :
    ['.', '.'] ∈ splitSlash xs ↔
      ∃ pre suf, xs = pre ++ ['.', '.'] ++ suf
        ∧ (pre = [] ∨ pre.getLast? = some '/') ∧ (suf = [] ∨ suf.head? = some '/') := by
  constructor
  · exact dotdot_of_mem_splitSlash xs
  · rintro ⟨pre, suf, rfl, hpre, hsuf⟩
    have hmid : ['.', '.'] ∈ splitSlash (['.', '.'] ++ suf) := by
      rcases hsuf with h | h
      · subst h
        simp [splitSlash]
      · cases suf with
        | nil => simp at h
        | cons c t =>
          simp only [List.head?_cons, Option.some.injEq] at h
          subst h
          rw [splitSlash_append_slash ['.', '.'] t (by decide)]
          simp
    rcases hpre with h | h
    · subst h
      simpa using hmid
    · rcases List.eq_nil_or_concat pre with h0 | ⟨p, c, h0⟩
      · subst h0
        simp at h
      · rw [List.concat_eq_append] at h0
        subst h0
        have hc : c = '/' := by
          simpa [List.getLast?_append, Option.or] using h
        subst hc
        have e1 : p ++ ['/'] ++ ['.', '.'] ++ suf = p ++ '/' :: (['.', '.'] ++ suf) := by simp
        rw [e1, splitSlash_append]
        exact List.mem_append_right _ hmid

theorem joinBuf_singleton (e : String) : joinBuf [e] = e.data := by
  have h := joinBuf_snoc [] e
  have h0 : joinBuf [] = [] := rfl
  rw [List.nil_append, h0] at h
  rw [h]
  by_cases he : e = ""
  · subst he; simp
  · simp [he]

theorem joinBuf_pair (a e : String) (ha : a.data ≠ []) :
    joinBuf [a, e] = a.data ++ '/' :: e.data := by
  have h := joinBuf_snoc [a] e
  rw [joinBuf_singleton] at h
  have hl : a.data.length > 0 := List.length_pos.mpr ha
  have e1 : [a] ++ [e] = [a, e] := rfl
  rw [e1, if_pos (Or.inl hl), if_pos hl] at h
  rw [h]
  simp

theorem Join_pair (a e : String) (ha : a.data ≠ []) :
    Join [a, e] = ⟨cleanChars (a.data ++ '/' :: e.data)⟩ := by
  have hl : 0 < a.length := List.length_pos.mpr ha
  have hsz : ¬ (([a, e] : List String).map String.length).sum = 0 := by
    simp only [List.map, List.sum_cons, List.sum_nil]
    omega
  simp only [Join, if_neg hsz, joinBuf_pair a e ha]

/-- `path.Join` of a base path with `repo` and then with an ordinary plugin id is
the first join followed by `/` and the id. -/
theorem Join_repo_ordinary (base pluginId : String) (hid : Ordinary pluginId.data) :
    Join [Join [base, "repo"], pluginId] = Join [base, "repo"] ++ "/" ++ pluginId := by
  have l₁ : "repo".length = 4 := by decide
  have hsz : ¬ (([base, "repo"] : List String).map String.length).sum = 0 := by
    simp only [List.map, List.sum_cons, List.sum_nil, l₁]
    omega
  have hq : Join [base, "repo"] = ⟨cleanChars (joinBuf [base, "repo"])⟩ := by
    simp only [Join, if_neg hsz]
  have hx : joinBuf [base, "repo"] ≠ [] ∧ 4 ≤ (cleanChars (joinBuf [base, "repo"])).length := by
    by_cases hb : base.data = []
    · have hb' : base = "" := by
        cases base; simp_all
      subst hb'
      decide
    · rw [joinBuf_pair base "repo" hb]
      refine ⟨by simp, ?_⟩
      have := length_cleanChars_ordinary base.data "repo".data (by decide)
      have l₂ : "repo".data.length = 4 := by decide
      omega
  have hqd : (Join [base, "repo"]).data = cleanChars (joinBuf [base, "repo"]) := by rw [hq]
  have hqne : (Join [base, "repo"]).data ≠ [] := by
    rw [hqd]
    intro h
    have := hx.2
    rw [h] at this
    simp at this
  rw [Join_pair _ pluginId hqne]
  apply String.ext
  simp only [String.data_append, hqd]
  rw [cleanChars_append_ordinary _ _ hx.1 (by omega) hid]
  have : "/".data = ['/'] := rfl
  simp [this]

/-- `path.Join` of a base path with `repo` and then with a plugin id that has no `..`
element starts with the first join, and goes on with nothing or with a `/`. -/
theorem Join_repo_no_dotdot (base pluginId : String)
    (hdd : ['.', '.'] ∉ splitSlash pluginId.data) :
    ∃ rest, (Join [Join [base, "repo"], pluginId]).data = (Join [base, "repo"]).data ++ rest
      ∧ (rest = [] ∨ rest.head? = some '/') := by
  have l₁ : "repo".length = 4 := by decide
  have hsz : ¬ (([base, "repo"] : List String).map String.length).sum = 0 := by
    simp only [List.map, List.sum_cons, List.sum_nil, l₁]
    omega
  have hq : Join [base, "repo"] = ⟨cleanChars (joinBuf [base, "repo"])⟩ := by
    simp only [Join, if_neg hsz]
  have hx : joinBuf [base, "repo"] ≠ [] ∧ 4 ≤ (cleanChars (joinBuf [base, "repo"])).length := by
    by_cases hb : base.data = []
    · have hb' : base = "" := by
        cases base; simp_all
      subst hb'
      decide
    · rw [joinBuf_pair base "repo" hb]
      refine ⟨by simp, ?_⟩
      have := length_cleanChars_ordinary base.data "repo".data (by decide)
      have l₂ : "repo".data.length = 4 := by decide
      omega
  have hqd : (Join [base, "repo"]).data = cleanChars (joinBuf [base, "repo"]) := by rw [hq]
  have hqne : (Join [base, "repo"]).data ≠ [] := by
    rw [hqd]
    intro h
    have := hx.2
    rw [h] at this
    simp at this
  rw [Join_pair _ pluginId hqne]
  simp only [hqd]
  rw [cleanChars_append_no_dotdot _ _ hx.1 (by omega) hdd]
  exact ⟨_, rfl, head?_slashed _⟩

/-! ## Theorems: the manifest resolver -/

theorem ReadPlugin_of_dist (io : IoUtil σ) (unmarshal : Unmarshal InstalledPlugin) (fs : σ)
    (pluginDir pluginName b : String)
    (h : io.ReadFile (Join [pluginDir, pluginName, "dist", "plugin.json"]) fs = .ok b) :
    ReadPlugin io unmarshal fs pluginDir pluginName
      = (decodeManifest unmarshal pluginDir pluginName b,
          [IoCall.ReadFile (Join [pluginDir, pluginName, "dist", "plugin.json"])]) := by
  simp only [ReadPlugin, h, decodeManifest]
  split_ifs <;> rfl

theorem ReadPlugin_of_bare (io : IoUtil σ) (unmarshal : Unmarshal InstalledPlugin) (fs : σ)
    (pluginDir pluginName b : String) (e : Error)
    (h₁ : io.ReadFile (Join [pluginDir, pluginName, "dist", "plugin.json"]) fs = .error e)
    (h₂ : io.ReadFile (Join [pluginDir, pluginName, "plugin.json"]) fs = .ok b) :
    ReadPlugin io unmarshal fs pluginDir pluginName
      = (decodeManifest unmarshal pluginDir pluginName b,
          [IoCall.ReadFile (Join [pluginDir, pluginName, "dist", "plugin.json"]),
            IoCall.ReadFile (Join [pluginDir, pluginName, "plugin.json"])]) := by
  simp only [ReadPlugin, h₁, h₂, decodeManifest]
  split_ifs <;> rfl

theorem ReadPlugin_of_none (io : IoUtil σ) (unmarshal : Unmarshal InstalledPlugin) (fs : σ)
    (pluginDir pluginName : String) (e₁ e₂ : Error)
    (h₁ : io.ReadFile (Join [pluginDir, pluginName, "dist", "plugin.json"]) fs = .error e₁)
    (h₂ : io.ReadFile (Join [pluginDir, pluginName, "plugin.json"]) fs = .error e₂) :
    ReadPlugin io unmarshal fs pluginDir pluginName
      = ((InstalledPlugin.zero,
            some (errorsNew ("Could not find dist/plugin.json or plugin.json on  "
              ++ pluginName ++ " in " ++ pluginDir))),
          [IoCall.ReadFile (Join [pluginDir, pluginName, "dist", "plugin.json"]),
            IoCall.ReadFile (Join [pluginDir, pluginName, "plugin.json"])]) := by
  simp only [ReadPlugin, h₁, h₂]

/-- The identifier is untouched by the version default. -/
theorem decodeManifest_of_id_empty (unmarshal : Unmarshal InstalledPlugin)
    (pluginDir pluginName data : String) (h : (unmarshal data InstalledPlugin.zero).1.Id = "") :
    decodeManifest unmarshal pluginDir pluginName data
      = (InstalledPlugin.zero,
          some (errorsNew ("could not find plugin " ++ pluginName ++ " in " ++ pluginDir))) := by
  unfold decodeManifest
  by_cases hv : (unmarshal data InstalledPlugin.zero).1.Info.Version = "" <;> simp [hv, h]

theorem decodeManifest_of_id_nonempty (unmarshal : Unmarshal InstalledPlugin)
    (pluginDir pluginName data : String) (h : (unmarshal data InstalledPlugin.zero).1.Id ≠ "") :
    decodeManifest unmarshal pluginDir pluginName data
      = ({ (unmarshal data InstalledPlugin.zero).1 with
            Info := ⟨if (unmarshal data InstalledPlugin.zero).1.Info.Version = "" then "0.0.0"
              else (unmarshal data InstalledPlugin.zero).1.Info.Version⟩ }, none) := by
  unfold decodeManifest
  by_cases hv : (unmarshal data InstalledPlugin.zero).1.Info.Version = "" <;> simp [hv, h]

/-- The two error texts of `ReadPlugin` differ in their first letter. -/
theorem pluginNotFound_ne_manifestNotFound (a b : String) :
    errorsNew ("could not find plugin " ++ a)
      ≠ errorsNew ("Could not find dist/plugin.json or plugin.json on  " ++ b) := by
  intro hab
  have h1 := congrArg (fun x => x.msg.data.head?) hab
  simp [errorsNew, String.data_append] at h1

theorem decodeManifest_ne_manifestNotFound (unmarshal : Unmarshal InstalledPlugin)
    (pluginDir pluginName data : String) :
    (decodeManifest unmarshal pluginDir pluginName data).2
      ≠ some (errorsNew ("Could not find dist/plugin.json or plugin.json on  "
          ++ pluginName ++ " in " ++ pluginDir)) := by
  by_cases h : (unmarshal data InstalledPlugin.zero).1.Id = ""
  · rw [decodeManifest_of_id_empty _ _ _ _ h]
    simp only [ne_eq, Option.some.injEq, String.append_assoc]
    exact pluginNotFound_ne_manifestNotFound _ _
  · rw [decodeManifest_of_id_nonempty _ _ _ _ h]
    simp

/-- C1: when reading `dist/plugin.json` succeeds with bytes `b`, the only call
`ReadPlugin` makes is that read, so the bare `plugin.json` is never read, and its
result is the same on every filesystem whose `dist/plugin.json` holds `b`,
whatever the bare `plugin.json` holds. -/
theorem ReadPlugin_prefers_dist {σ₁ σ₂ : Type} (io₁ : IoUtil σ₁) (io₂ : IoUtil σ₂)
    (unmarshal : Unmarshal InstalledPlugin) (fs₁ : σ₁) (fs₂ : σ₂)
    (pluginDir pluginName b : String)
    (h₁ : io₁.ReadFile (Join [pluginDir, pluginName, "dist", "plugin.json"]) fs₁ = .ok b)
    (h₂ : io₂.ReadFile (Join [pluginDir, pluginName, "dist", "plugin.json"]) fs₂ = .ok b) :
    (ReadPlugin io₁ unmarshal fs₁ pluginDir pluginName).2
        = [IoCall.ReadFile (Join [pluginDir, pluginName, "dist", "plugin.json"])]
    ∧ IoCall.ReadFile (Join [pluginDir, pluginName, "plugin.json"])
        ∉ (ReadPlugin io₁ unmarshal fs₁ pluginDir pluginName).2
    ∧ (ReadPlugin io₁ unmarshal fs₁ pluginDir pluginName).1
        = (ReadPlugin io₂ unmarshal fs₂ pluginDir pluginName).1 := by
  rw [ReadPlugin_of_dist io₁ unmarshal fs₁ pluginDir pluginName b h₁,
    ReadPlugin_of_dist io₂ unmarshal fs₂ pluginDir pluginName b h₂]
  refine ⟨rfl, ?_, rfl⟩
  simp only [List.mem_singleton, IoCall.ReadFile.injEq]
  exact fun h => Join_dist_ne_bare pluginDir pluginName h.symm

/-- Witness for C1: the dist manifest of plugin `r` has no identifier and is
rejected, the bare manifest is valid; the bare one is not read and the result is
the rejection, as on a filesystem holding only the dist manifest. -/
theorem ReadPlugin_prefers_dist_witness :
    ((ReadPlugin memIo jsonUnmarshal
          ⟨[("/plugins/r/dist/plugin.json", "\x7b\"name\":\"r\"\x7d"),
            ("/plugins/r/plugin.json", "\x7b\"id\":\"r-panel\"\x7d")], []⟩ "/plugins" "r").2
        = [IoCall.ReadFile "/plugins/r/dist/plugin.json"]
      ∧ IoCall.ReadFile "/plugins/r/plugin.json"
        ∉ (ReadPlugin memIo jsonUnmarshal
          ⟨[("/plugins/r/dist/plugin.json", "\x7b\"name\":\"r\"\x7d"),
            ("/plugins/r/plugin.json", "\x7b\"id\":\"r-panel\"\x7d")], []⟩ "/plugins" "r").2
      ∧ (ReadPlugin memIo jsonUnmarshal
          ⟨[("/plugins/r/dist/plugin.json", "\x7b\"name\":\"r\"\x7d"),
            ("/plugins/r/plugin.json", "\x7b\"id\":\"r-panel\"\x7d")], []⟩ "/plugins" "r").1
        = (ReadPlugin memIo jsonUnmarshal
            ⟨[("/plugins/r/dist/plugin.json", "\x7b\"name\":\"r\"\x7d")], []⟩
            "/plugins" "r").1)
    ∧ (ReadPlugin memIo jsonUnmarshal
          ⟨[("/plugins/r/dist/plugin.json", "\x7b\"name\":\"r\"\x7d"),
            ("/plugins/r/plugin.json", "\x7b\"id\":\"r-panel\"\x7d")], []⟩ "/plugins" "r").1
        = (InstalledPlugin.zero, some (errorsNew "could not find plugin r in /plugins")) :=
  ⟨ReadPlugin_prefers_dist memIo memIo jsonUnmarshal
      ⟨[("/plugins/r/dist/plugin.json", "\x7b\"name\":\"r\"\x7d"),
        ("/plugins/r/plugin.json", "\x7b\"id\":\"r-panel\"\x7d")], []⟩
      ⟨[("/plugins/r/dist/plugin.json", "\x7b\"name\":\"r\"\x7d")], []⟩
      "/plugins" "r" "\x7b\"name\":\"r\"\x7d" rfl rfl,
    rfl⟩

/-- C2: when reading `dist/plugin.json` fails and the bare `plugin.json` is read
with bytes `b`, `ReadPlugin` returns the same value and error as on any filesystem
whose `dist/plugin.json` is readable with the same bytes `b`. -/
theorem ReadPlugin_fallback_eq_dist {σ₁ σ₂ : Type} (io₁ : IoUtil σ₁) (io₂ : IoUtil σ₂)
    (unmarshal : Unmarshal InstalledPlugin) (fs₁ : σ₁) (fs₂ : σ₂)
    (pluginDir pluginName b : String) (e : Error)
    (hdist : io₁.ReadFile (Join [pluginDir, pluginName, "dist", "plugin.json"]) fs₁ = .error e)
    (hbare : io₁.ReadFile (Join [pluginDir, pluginName, "plugin.json"]) fs₁ = .ok b)
    (hdist₂ : io₂.ReadFile (Join [pluginDir, pluginName, "dist", "plugin.json"]) fs₂ = .ok b) :
    (ReadPlugin io₁ unmarshal fs₁ pluginDir pluginName).1
      = (ReadPlugin io₂ unmarshal fs₂ pluginDir pluginName).1 := by
  rw [ReadPlugin_of_bare io₁ unmarshal fs₁ pluginDir pluginName b e hdist hbare,
    ReadPlugin_of_dist io₂ unmarshal fs₂ pluginDir pluginName b hdist₂]

/-- Witness for C2: plugin `b` of the example root has only the bare manifest; a
filesystem holding the same bytes under `dist` gives the same result. -/
theorem ReadPlugin_fallback_eq_dist_witness :
    (ReadPlugin memIo jsonUnmarshal exampleFS "/plugins" "b").1
      = (ReadPlugin memIo jsonUnmarshal
          ⟨[("/plugins/b/dist/plugin.json", "\x7b\"id\":\"b-app\",\"info\":\x7b\"version\":\"2.1.0\"\x7d\x7d")], []⟩
          "/plugins" "b").1 :=
  ReadPlugin_fallback_eq_dist memIo memIo jsonUnmarshal exampleFS _ "/plugins" "b"
    "\x7b\"id\":\"b-app\",\"info\":\x7b\"version\":\"2.1.0\"\x7d\x7d"
    ⟨"open /plugins/b/dist/plugin.json: no such file or directory"⟩ (by rfl) (by rfl) (by rfl)

/-- C3: `ReadPlugin` returns the zero-value `InstalledPlugin` with the
manifest-not-found error when reading both `dist/plugin.json` and `plugin.json`
fails, and returns that error in no other case; the message of that error contains
`pluginName` and `pluginDir`. -/
theorem ReadPlugin_manifest_not_found (io : IoUtil σ) (unmarshal : Unmarshal InstalledPlugin)
    (fs : σ) (pluginDir pluginName : String) :
    (pluginName.data <:+:
        ("Could not find dist/plugin.json or plugin.json on  " ++ pluginName ++ " in "
          ++ pluginDir).data
      ∧ pluginDir.data <:+:
        ("Could not find dist/plugin.json or plugin.json on  " ++ pluginName ++ " in "
          ++ pluginDir).data)
    ∧ (((∃ e₁, io.ReadFile (Join [pluginDir, pluginName, "dist", "plugin.json"]) fs = .error e₁)
        ∧ (∃ e₂, io.ReadFile (Join [pluginDir, pluginName, "plugin.json"]) fs = .error e₂))
      → (ReadPlugin io unmarshal fs pluginDir pluginName).1
          = (InstalledPlugin.zero,
              some (errorsNew ("Could not find dist/plugin.json or plugin.json on  "
                ++ pluginName ++ " in " ++ pluginDir))))
    ∧ ((ReadPlugin io unmarshal fs pluginDir pluginName).1.2
          = some (errorsNew ("Could not find dist/plugin.json or plugin.json on  "
                ++ pluginName ++ " in " ++ pluginDir))
      → ((∃ e₁, io.ReadFile (Join [pluginDir, pluginName, "dist", "plugin.json"]) fs = .error e₁)
        ∧ (∃ e₂, io.ReadFile (Join [pluginDir, pluginName, "plugin.json"]) fs = .error e₂))) := by
  refine ⟨⟨?_, ?_⟩, ?_, ?_⟩
  · refine ⟨"Could not find dist/plugin.json or plugin.json on  ".data,
      (" in " ++ pluginDir).data, ?_⟩
    simp [String.data_append]
  · exact ⟨("Could not find dist/plugin.json or plugin.json on  " ++ pluginName ++ " in ").data,
      [], by simp [String.data_append]⟩
  · rintro ⟨⟨e₁, h₁⟩, ⟨e₂, h₂⟩⟩
    rw [ReadPlugin_of_none io unmarshal fs pluginDir pluginName e₁ e₂ h₁ h₂]
  · intro h
    cases h₁ : io.ReadFile (Join [pluginDir, pluginName, "dist", "plugin.json"]) fs with
    | ok d =>
      rw [ReadPlugin_of_dist io unmarshal fs pluginDir pluginName d h₁] at h
      exact absurd h (decodeManifest_ne_manifestNotFound _ _ _ _)
    | error e₁ =>
      refine ⟨⟨e₁, rfl⟩, ?_⟩
      cases h₂ : io.ReadFile (Join [pluginDir, pluginName, "plugin.json"]) fs with
      | error e₂ => exact ⟨e₂, rfl⟩
      | ok d =>
        rw [ReadPlugin_of_bare io unmarshal fs pluginDir pluginName d e₁ h₁ h₂] at h
        exact absurd h (decodeManifest_ne_manifestNotFound _ _ _ _)

/-- Witness for C3: `nomanifest` of the example root has neither manifest. -/
theorem ReadPlugin_manifest_not_found_witness :
    (ReadPlugin memIo jsonUnmarshal exampleFS "/plugins" "nomanifest").1
      = (InstalledPlugin.zero,
          some (errorsNew
            "Could not find dist/plugin.json or plugin.json on  nomanifest in /plugins")) :=
  (ReadPlugin_manifest_not_found memIo jsonUnmarshal exampleFS "/plugins" "nomanifest").2.1
    ⟨⟨_, rfl⟩, ⟨_, rfl⟩⟩

theorem decodeManifest_success (unmarshal : Unmarshal InstalledPlugin)
    (pluginDir pluginName data : String) (res : InstalledPlugin)
    (h : decodeManifest unmarshal pluginDir pluginName data = (res, none)) :
    res.Id ≠ "" ∧ res.Info.Version ≠ "" := by
  by_cases hid : (unmarshal data InstalledPlugin.zero).1.Id = ""
  · rw [decodeManifest_of_id_empty _ _ _ _ hid] at h
    simp at h
  · rw [decodeManifest_of_id_nonempty _ _ _ _ hid] at h
    simp only [Prod.mk.injEq, and_true] at h
    subst h
    refine ⟨hid, ?_⟩
    by_cases hv : (unmarshal data InstalledPlugin.zero).1.Info.Version = ""
    · simp [hv]
    · simp [hv]

/-- Every result of `ReadPlugin` is the manifest-not-found error or the decoding
of the manifest bytes that were read. -/
theorem ReadPlugin_cases (io : IoUtil σ) (unmarshal : Unmarshal InstalledPlugin) (fs : σ)
    (pluginDir pluginName : String) :
    (ReadPlugin io unmarshal fs pluginDir pluginName).1
        = (InstalledPlugin.zero,
            some (errorsNew ("Could not find dist/plugin.json or plugin.json on  "
              ++ pluginName ++ " in " ++ pluginDir)))
    ∨ ∃ data, (ReadPlugin io unmarshal fs pluginDir pluginName).1
        = decodeManifest unmarshal pluginDir pluginName data := by
  cases h₁ : io.ReadFile (Join [pluginDir, pluginName, "dist", "plugin.json"]) fs with
  | ok d => exact Or.inr ⟨d, by rw [ReadPlugin_of_dist io unmarshal fs pluginDir pluginName d h₁]⟩
  | error e₁ =>
    cases h₂ : io.ReadFile (Join [pluginDir, pluginName, "plugin.json"]) fs with
    | ok d =>
      exact Or.inr ⟨d, by rw [ReadPlugin_of_bare io unmarshal fs pluginDir pluginName d e₁ h₁ h₂]⟩
    | error e₂ =>
      exact Or.inl (by rw [ReadPlugin_of_none io unmarshal fs pluginDir pluginName e₁ e₂ h₁ h₂])

/-- The result of `ReadPlugin` when `data` is the manifest it reads: from
`dist/plugin.json`, or from `plugin.json` after the first read failed. -/
theorem ReadPlugin_of_manifest (io : IoUtil σ) (unmarshal : Unmarshal InstalledPlugin) (fs : σ)
    (pluginDir pluginName data : String)
    (h : io.ReadFile (Join [pluginDir, pluginName, "dist", "plugin.json"]) fs = .ok data
      ∨ ((∃ e, io.ReadFile (Join [pluginDir, pluginName, "dist", "plugin.json"]) fs = .error e)
        ∧ io.ReadFile (Join [pluginDir, pluginName, "plugin.json"]) fs = .ok data)) :
    (ReadPlugin io unmarshal fs pluginDir pluginName).1
      = decodeManifest unmarshal pluginDir pluginName data := by
  rcases h with h | ⟨⟨e, h₁⟩, h₂⟩
  · rw [ReadPlugin_of_dist io unmarshal fs pluginDir pluginName data h]
  · rw [ReadPlugin_of_bare io unmarshal fs pluginDir pluginName data e h₁ h₂]

/-- C4: if the identifier decoded from the manifest that `ReadPlugin` reads is
empty, `ReadPlugin` returns the zero-value `InstalledPlugin` and the
plugin-not-found error, whose message contains `pluginName` and `pluginDir`;
conversely an `InstalledPlugin` returned with a nil error has a non-empty `Id`. -/
theorem ReadPlugin_empty_id (io : IoUtil σ) (unmarshal : Unmarshal InstalledPlugin) (fs : σ)
    (pluginDir pluginName : String) :
    (∀ data : String,
      (io.ReadFile (Join [pluginDir, pluginName, "dist", "plugin.json"]) fs = .ok data
        ∨ ((∃ e, io.ReadFile (Join [pluginDir, pluginName, "dist", "plugin.json"]) fs = .error e)
          ∧ io.ReadFile (Join [pluginDir, pluginName, "plugin.json"]) fs = .ok data)) →
      (unmarshal data InstalledPlugin.zero).1.Id = "" →
      (ReadPlugin io unmarshal fs pluginDir pluginName).1
        = (InstalledPlugin.zero,
            some (errorsNew ("could not find plugin " ++ pluginName ++ " in " ++ pluginDir))))
    ∧ (pluginName.data <:+: ("could not find plugin " ++ pluginName ++ " in " ++ pluginDir).data
      ∧ pluginDir.data <:+: ("could not find plugin " ++ pluginName ++ " in " ++ pluginDir).data)
    ∧ (∀ res : InstalledPlugin,
      (ReadPlugin io unmarshal fs pluginDir pluginName).1 = (res, none) → res.Id ≠ "") := by
  refine ⟨?_, ⟨?_, ?_⟩, ?_⟩
  · intro data hread hid
    rw [ReadPlugin_of_manifest io unmarshal fs pluginDir pluginName data hread,
      decodeManifest_of_id_empty _ _ _ _ hid]
  · exact ⟨"could not find plugin ".data, (" in " ++ pluginDir).data,
      by simp [String.data_append]⟩
  · exact ⟨("could not find plugin " ++ pluginName ++ " in ").data, [],
      by simp [String.data_append]⟩
  · intro res h
    rcases ReadPlugin_cases io unmarshal fs pluginDir pluginName with h0 | ⟨data, hd⟩
    · rw [h0] at h
      simp at h
    · rw [hd] at h
      exact (decodeManifest_success _ _ _ _ _ h).1

/-- Witness for C4: a manifest with an empty identifier and every other field
populated is rejected. -/
theorem ReadPlugin_empty_id_witness :
    (ReadPlugin memIo jsonUnmarshal
        ⟨[("/plugins/e/dist/plugin.json",
            "\x7b\"id\":\"\",\"name\":\"E\",\"info\":\x7b\"version\":\"3.0.0\"\x7d\x7d")], []⟩
        "/plugins" "e").1
      = (InstalledPlugin.zero, some (errorsNew "could not find plugin e in /plugins")) :=
  (ReadPlugin_empty_id memIo jsonUnmarshal _ "/plugins" "e").1
    "\x7b\"id\":\"\",\"name\":\"E\",\"info\":\x7b\"version\":\"3.0.0\"\x7d\x7d" (Or.inl rfl) (by decide)

theorem decodeInfo_object (ims : List (String × JsonValue)) (cur : PluginInfo)
    (saved : Option Error) :
    decodeInfo (.object ims) cur saved = ims.foldl infoStep (cur, saved) := rfl

theorem decodePlugin_object (members : List (String × JsonValue)) (cur : InstalledPlugin) :
    decodePlugin (.object members) cur = members.foldl pluginStep (cur, none) := rfl

/-- A JSON value that is not a string leaves a Go `string` field as it is. -/
theorem decodeString_of_not_string (v : JsonValue) (field cur : String) (saved : Option Error)
    (h : ∀ s, v ≠ .string s) : (decodeString v field cur saved).1 = cur := by
  cases v with
  | string s => exact absurd rfl (h s)
  | null => rfl
  | bool b => rfl
  | number n => rfl
  | array a => rfl
  | object o => rfl

theorem decodeString_string (s field cur : String) (saved : Option Error) :
    (decodeString (.string s) field cur saved).1 = s := rfl

/-- Members of an `info` object that carry no version string leave the block alone. -/
theorem foldl_infoStep_keeps (ims : List (String × JsonValue)) (acc : PluginInfo × Option Error)
    (h : ∀ x ∈ ims, fieldMatch x.1 "version" = true → ∀ s, x.2 ≠ .string s) :
    (ims.foldl infoStep acc).1 = acc.1 := by
  induction ims generalizing acc with
  | nil => rfl
  | cons m t ih =>
    have ht : ∀ x ∈ t, fieldMatch x.1 "version" = true → ∀ s, x.2 ≠ .string s :=
      fun x hx => h x (by simp [hx])
    rw [List.foldl_cons, ih _ ht]
    by_cases hm : fieldMatch m.1 "version" = true
    · simp only [infoStep, hm, if_true]
      rw [decodeString_of_not_string _ _ _ _ (h m (by simp) hm)]
    · simp only [infoStep, hm, if_false, Bool.false_eq_true]

/-- The last version string of an `info` object is the decoded version. -/
theorem foldl_infoStep_version (ipre ipost : List (String × JsonValue)) (kv v : String)
    (acc : PluginInfo × Option Error) (hkv : fieldMatch kv "version" = true)
    (hpost : ∀ x ∈ ipost, fieldMatch x.1 "version" = true → ∀ s, x.2 ≠ .string s) :
    ((ipre ++ (kv, JsonValue.string v) :: ipost).foldl infoStep acc).1.Version = v := by
  rw [List.foldl_append, List.foldl_cons, foldl_infoStep_keeps ipost _ hpost]
  simp only [infoStep, hkv, if_true]
  rfl

/-- A member value that is no object with a version string leaves the block alone. -/
theorem decodeInfo_keeps (v : JsonValue) (cur : PluginInfo) (saved : Option Error)
    (h : ∀ ims, v = .object ims →
      ∀ x ∈ ims, fieldMatch x.1 "version" = true → ∀ s, x.2 ≠ .string s) :
    (decodeInfo v cur saved).1 = cur := by
  cases v with
  | object ims =>
    rw [decodeInfo_object]
    exact foldl_infoStep_keeps ims _ (h ims rfl)
  | null => rfl
  | bool b => rfl
  | number n => rfl
  | string s => rfl
  | array a => rfl

theorem fieldMatch_info_not_id (k : String) (h : fieldMatch k "info" = true) :
    fieldMatch k "id" = false := by
  have hf : k.data.map foldChar = "info".data.map foldChar := by
    simp only [fieldMatch, Bool.or_eq_true, decide_eq_true_eq] at h
    rcases h with h | h
    · rw [h]
    · exact h
  simp only [fieldMatch, Bool.or_eq_false_iff, decide_eq_false_iff_not]
  constructor
  · intro hk
    rw [hk] at hf
    exact absurd hf (by decide)
  · intro hk
    rw [hk] at hf
    exact absurd hf (by decide)

/-- Members whose `info` objects carry no version string leave the info block alone. -/
theorem foldl_pluginStep_info_keeps (ms : List (String × JsonValue))
    (acc : InstalledPlugin × Option Error)
    (h : ∀ m ∈ ms, fieldMatch m.1 "info" = true → ∀ ims, m.2 = .object ims →
      ∀ x ∈ ims, fieldMatch x.1 "version" = true → ∀ s, x.2 ≠ .string s) :
    (ms.foldl pluginStep acc).1.Info = acc.1.Info := by
  induction ms generalizing acc with
  | nil => rfl
  | cons m t ih =>
    have ht : ∀ x ∈ t, fieldMatch x.1 "info" = true → ∀ ims, x.2 = .object ims →
        ∀ y ∈ ims, fieldMatch y.1 "version" = true → ∀ s, y.2 ≠ .string s :=
      fun x hx => h x (by simp [hx])
    rw [List.foldl_cons, ih _ ht]
    by_cases hid : fieldMatch m.1 "id" = true
    · simp only [pluginStep, hid, if_true]
    · by_cases hinfo : fieldMatch m.1 "info" = true
      · simp only [pluginStep, hid, hinfo, if_true, if_false, Bool.false_eq_true]
        exact decodeInfo_keeps _ _ _ (h m (by simp) hinfo)
      · simp only [pluginStep, hid, hinfo, if_false, Bool.false_eq_true]

/-- Members that carry no identifier string leave the identifier alone. -/
theorem foldl_pluginStep_id_keeps (ms : List (String × JsonValue))
    (acc : InstalledPlugin × Option Error)
    (h : ∀ m ∈ ms, fieldMatch m.1 "id" = true → ∀ s, m.2 ≠ .string s) :
    (ms.foldl pluginStep acc).1.Id = acc.1.Id := by
  induction ms generalizing acc with
  | nil => rfl
  | cons m t ih =>
    have ht : ∀ x ∈ t, fieldMatch x.1 "id" = true → ∀ s, x.2 ≠ .string s :=
      fun x hx => h x (by simp [hx])
    rw [List.foldl_cons, ih _ ht]
    by_cases hid : fieldMatch m.1 "id" = true
    · simp only [pluginStep, hid, if_true]
      exact decodeString_of_not_string _ _ _ _ (h m (by simp) hid)
    · by_cases hinfo : fieldMatch m.1 "info" = true
      · simp only [pluginStep, hid, hinfo, if_true, if_false, Bool.false_eq_true]
      · simp only [pluginStep, hid, hinfo, if_false, Bool.false_eq_true]

/-- The identifier decoded from a manifest object is its last identifier string. -/
theorem decodePlugin_id (pre post : List (String × JsonValue)) (k i : String)
    (cur : InstalledPlugin) (hk : fieldMatch k "id" = true)
    (hpost : ∀ m ∈ post, fieldMatch m.1 "id" = true → ∀ s, m.2 ≠ .string s) :
    (decodePlugin (.object (pre ++ (k, JsonValue.string i) :: post)) cur).1.Id = i := by
  rw [decodePlugin_object, List.foldl_append, List.foldl_cons,
    foldl_pluginStep_id_keeps post _ hpost]
  simp only [pluginStep, hk, if_true]
  rfl

/-- The version decoded from a manifest object is the last version string of its
last `info` object that has one. -/
theorem decodePlugin_version (pre post ipre ipost : List (String × JsonValue))
    (k kv v : String) (cur : InstalledPlugin)
    (hk : fieldMatch k "info" = true) (hkv : fieldMatch kv "version" = true)
    (hipost : ∀ x ∈ ipost, fieldMatch x.1 "version" = true → ∀ s, x.2 ≠ .string s)
    (hpost : ∀ m ∈ post, fieldMatch m.1 "info" = true → ∀ ims, m.2 = .object ims →
      ∀ x ∈ ims, fieldMatch x.1 "version" = true → ∀ s, x.2 ≠ .string s) :
    (decodePlugin
      (.object (pre ++ (k, JsonValue.object (ipre ++ (kv, JsonValue.string v) :: ipost)) :: post))
      cur).1.Info.Version = v := by
  rw [decodePlugin_object, List.foldl_append, List.foldl_cons,
    foldl_pluginStep_info_keeps post _ hpost]
  simp only [pluginStep, fieldMatch_info_not_id k hk, hk, if_true, if_false,
    Bool.false_eq_true, decodeInfo_object]
  exact foldl_infoStep_version ipre ipost kv v _ hkv hipost

/-- A manifest object none of whose `info` objects has a version string decodes to
an empty version. -/
theorem decodePlugin_version_absent (members : List (String × JsonValue))
    (h : ∀ m ∈ members, fieldMatch m.1 "info" = true → ∀ ims, m.2 = .object ims →
      ∀ x ∈ ims, fieldMatch x.1 "version" = true → ∀ s, x.2 ≠ .string s) :
    (decodePlugin (.object members) InstalledPlugin.zero).1.Info.Version = "" := by
  rw [decodePlugin_object, foldl_pluginStep_info_keeps members _ h]
  rfl

/-- C5: for a manifest read by `ReadPlugin` that is a JSON object whose identifier
(its last `id` string) is `i`, non-empty, `ReadPlugin` succeeds with `Id = i`, and
the returned `Info.Version` is `"0.0.0"` when the manifest has no version string
(no `info` object of it holds one), and otherwise is the manifest's version string
`v` (the last one of its last `info` object that has one), or `"0.0.0"` when `v` is
empty; no successful result of `ReadPlugin` has an empty version. -/
theorem ReadPlugin_version_default (io : IoUtil σ) (fs : σ)
    (pluginDir pluginName data : String) (members idpre idpost : List (String × JsonValue))
    (ik i : String)
    (hread : io.ReadFile (Join [pluginDir, pluginName, "dist", "plugin.json"]) fs = .ok data
      ∨ ((∃ e, io.ReadFile (Join [pluginDir, pluginName, "dist", "plugin.json"]) fs = .error e)
        ∧ io.ReadFile (Join [pluginDir, pluginName, "plugin.json"]) fs = .ok data))
    (hparse : parseJSON data = some (.object members))
    (hmem : members = idpre ++ (ik, JsonValue.string i) :: idpost)
    (hik : fieldMatch ik "id" = true)
    (hidpost : ∀ m ∈ idpost, fieldMatch m.1 "id" = true → ∀ s, m.2 ≠ .string s)
    (hne : i ≠ "") :
    (ReadPlugin io jsonUnmarshal fs pluginDir pluginName).1.2 = none
    ∧ (ReadPlugin io jsonUnmarshal fs pluginDir pluginName).1.1.Id = i
    ∧ ((∀ m ∈ members, fieldMatch m.1 "info" = true → ∀ ims, m.2 = .object ims →
          ∀ x ∈ ims, fieldMatch x.1 "version" = true → ∀ s, x.2 ≠ .string s) →
        (ReadPlugin io jsonUnmarshal fs pluginDir pluginName).1.1.Info.Version = "0.0.0")
    ∧ (∀ (pre post ipre ipost : List (String × JsonValue)) (k kv v : String),
        members = pre ++ (k, JsonValue.object (ipre ++ (kv, JsonValue.string v) :: ipost)) :: post →
        fieldMatch k "info" = true → fieldMatch kv "version" = true →
        (∀ x ∈ ipost, fieldMatch x.1 "version" = true → ∀ s, x.2 ≠ .string s) →
        (∀ m ∈ post, fieldMatch m.1 "info" = true → ∀ ims, m.2 = .object ims →
          ∀ x ∈ ims, fieldMatch x.1 "version" = true → ∀ s, x.2 ≠ .string s) →
        (ReadPlugin io jsonUnmarshal fs pluginDir pluginName).1.1.Info.Version
          = if v = "" then "0.0.0" else v)
    ∧ (∀ res : InstalledPlugin,
        (ReadPlugin io jsonUnmarshal fs pluginDir pluginName).1 = (res, none) →
        res.Info.Version ≠ "") := by
  have hdec : jsonUnmarshal data InstalledPlugin.zero
      = decodePlugin (.object members) InstalledPlugin.zero := by
    simp only [jsonUnmarshal, hparse]
  have hId : (jsonUnmarshal data InstalledPlugin.zero).1.Id = i := by
    rw [hdec, hmem]
    exact decodePlugin_id idpre idpost ik i _ hik hidpost
  have hid : (jsonUnmarshal data InstalledPlugin.zero).1.Id ≠ "" := by
    rw [hId]; exact hne
  have hres := ReadPlugin_of_manifest io jsonUnmarshal fs pluginDir pluginName data hread
  rw [decodeManifest_of_id_nonempty _ _ _ _ hid] at hres
  refine ⟨by rw [hres], by rw [hres]; exact hId, ?_, ?_, ?_⟩
  · intro habs
    have hv : (jsonUnmarshal data InstalledPlugin.zero).1.Info.Version = "" := by
      rw [hdec]; exact decodePlugin_version_absent members habs
    rw [hres]
    simp only [hv, if_true]
  · intro pre post ipre ipost k kv v hm hk hkv hipost hpost
    have hv : (jsonUnmarshal data InstalledPlugin.zero).1.Info.Version = v := by
      rw [hdec, hm]
      exact decodePlugin_version pre post ipre ipost k kv v _ hk hkv hipost hpost
    rw [hres]
    simp only [hv]
  · intro res h
    rw [hres] at h
    simp only [Prod.mk.injEq, and_true] at h
    subst h
    by_cases hv : (jsonUnmarshal data InstalledPlugin.zero).1.Info.Version = ""
    · simp [hv]
    · simp [hv]

/-- Witness for C5: in the example root plugin `a` is returned with its manifest
version `1.0.0`, plugin `c`, whose manifest has no `info` block, with `0.0.0`; a
manifest with an empty version string is returned with `0.0.0` as well. -/
theorem ReadPlugin_version_default_witness :
    (ReadPlugin memIo jsonUnmarshal exampleFS "/plugins" "a").1.1.Info.Version = "1.0.0"
    ∧ (ReadPlugin memIo jsonUnmarshal exampleFS "/plugins" "c").1.1.Info.Version = "0.0.0"
    ∧ (ReadPlugin memIo jsonUnmarshal
        ⟨[("/plugins/v/plugin.json",
            "\x7b\"id\":\"v-app\",\"info\":\x7b\"version\":\"\"\x7d\x7d")], []⟩
        "/plugins" "v").1.1.Info.Version = "0.0.0" :=
  ⟨((ReadPlugin_version_default memIo exampleFS "/plugins" "a"
        "\x7b\"id\":\"a-panel\",\"info\":\x7b\"version\":\"1.0.0\"\x7d\x7d"
        [("id", .string "a-panel"), ("info", .object [("version", .string "1.0.0")])]
        [] [("info", .object [("version", .string "1.0.0")])] "id" "a-panel"
        (Or.inl rfl) (by rfl) rfl (by decide)
        (fun m hm h => by
          rw [List.mem_singleton] at hm
          subst hm
          exact absurd h (by decide))
        (by decide)).2.2.2.1
      [("id", .string "a-panel")] [] [] [] "info" "version" "1.0.0" rfl (by decide) (by decide)
      (fun x hx => absurd hx (List.not_mem_nil x))
      (fun m hm => absurd hm (List.not_mem_nil m))).trans (if_neg (by decide)),
    (ReadPlugin_version_default memIo exampleFS "/plugins" "c"
        "\x7b\"id\":\"c-datasource\",\"type\":\"datasource\"\x7d"
        [("id", .string "c-datasource"), ("type", .string "datasource")]
        [] [("type", .string "datasource")] "id" "c-datasource"
        (Or.inr ⟨⟨_, rfl⟩, rfl⟩) (by rfl) rfl (by decide)
        (fun m hm h => by
          rw [List.mem_singleton] at hm
          subst hm
          exact absurd h (by decide))
        (by decide)).2.2.1
      (fun m hm h => by
        rcases List.mem_cons.mp hm with h1 | h1
        · subst h1
          exact absurd h (by decide)
        · rw [List.mem_singleton] at h1
          subst h1
          exact absurd h (by decide)),
    ((ReadPlugin_version_default memIo
        ⟨[("/plugins/v/plugin.json",
            "\x7b\"id\":\"v-app\",\"info\":\x7b\"version\":\"\"\x7d\x7d")], []⟩
        "/plugins" "v" "\x7b\"id\":\"v-app\",\"info\":\x7b\"version\":\"\"\x7d\x7d"
        [("id", .string "v-app"), ("info", .object [("version", .string "")])]
        [] [("info", .object [("version", .string "")])] "id" "v-app"
        (Or.inr ⟨⟨_, rfl⟩, rfl⟩) (by rfl) rfl (by decide)
        (fun m hm h => by
          rw [List.mem_singleton] at hm
          subst hm
          exact absurd h (by decide))
        (by decide)).2.2.2.1
      [("id", .string "v-app")] [] [] [] "info" "version" "" rfl (by decide) (by decide)
      (fun x hx => absurd hx (List.not_mem_nil x))
      (fun m hm => absurd hm (List.not_mem_nil m))).trans (if_pos rfl)⟩

/-- The loop of `GetLocalPlugins` from any accumulator. -/
theorem GetLocalPlugins_loop (io : IoUtil σ) (unmarshal : Unmarshal InstalledPlugin) (fs : σ)
    (pluginDir : String) (files : List FileInfo) (acc : List InstalledPlugin × List IoCall) :
    (files.foldl
      (fun (acc : List InstalledPlugin × List IoCall) (f : FileInfo) =>
        match (ReadPlugin io unmarshal fs pluginDir f.Name).1.2 with
        | none =>
          (acc.1 ++ [(ReadPlugin io unmarshal fs pluginDir f.Name).1.1],
            acc.2 ++ (ReadPlugin io unmarshal fs pluginDir f.Name).2)
        | some _ => (acc.1, acc.2 ++ (ReadPlugin io unmarshal fs pluginDir f.Name).2))
      acc).1
      = acc.1 ++ files.filterMap (fun f =>
          match (ReadPlugin io unmarshal fs pluginDir f.Name).1 with
          | (res, none) => some res
          | (_, some _) => none) := by
  induction files generalizing acc with
  | nil => simp
  | cons f rest ih =>
    rw [List.foldl_cons, ih]
    rcases hr : (ReadPlugin io unmarshal fs pluginDir f.Name).1 with ⟨res, _ | err⟩
    · simp [List.filterMap_cons, hr]
    · simp [List.filterMap_cons, hr]

/-- C7: `GetLocalPlugins(pluginDir)` returns, in directory-listing order, exactly
the `ReadPlugin` results of the directory entries for which `ReadPlugin` returns a
nil error, and the empty sequence when listing `pluginDir` fails. -/
theorem GetLocalPlugins_spec (io : IoUtil σ) (unmarshal : Unmarshal InstalledPlugin) (fs : σ)
    (pluginDir : String) :
    (∀ files : List FileInfo, io.ReadDir pluginDir fs = .ok files →
      (GetLocalPlugins io unmarshal fs pluginDir).1
        = files.filterMap (fun f =>
            match (ReadPlugin io unmarshal fs pluginDir f.Name).1 with
            | (res, none) => some res
            | (_, some _) => none))
    ∧ (∀ e : Error, io.ReadDir pluginDir fs = .error e →
      (GetLocalPlugins io unmarshal fs pluginDir).1 = []) := by
  refine ⟨?_, ?_⟩
  · intro files h
    simp only [GetLocalPlugins, h]
    rw [GetLocalPlugins_loop]
    simp
  · intro e h
    simp [GetLocalPlugins, h]

/-- Witness for C7: three valid plugin directories and one without a manifest give
exactly the three valid plugins, in listing order. -/
theorem GetLocalPlugins_spec_witness :
    (GetLocalPlugins memIo jsonUnmarshal exampleFS "/plugins").1
      = [⟨"a-panel", ⟨"1.0.0"⟩, []⟩, ⟨"b-app", ⟨"2.1.0"⟩, []⟩,
          ⟨"c-datasource", ⟨"0.0.0"⟩, [("type", JsonValue.string "datasource")]⟩] :=
  ((GetLocalPlugins_spec memIo jsonUnmarshal exampleFS "/plugins").1
    [⟨"a"⟩, ⟨"nomanifest"⟩, ⟨"b"⟩, ⟨"c"⟩] rfl).trans (by rfl)

/-- C8: when the stat of `path.Join(pluginPath, pluginName)` fails,
`RemoveInstalledPlugin` returns that error, calls nothing else and leaves the
filesystem unchanged; when it succeeds, `RemoveAll` is called on exactly that
directory and its error (or nil) and resulting filesystem are returned as they
are. -/
theorem RemoveInstalledPlugin_spec (io : IoUtil σ) (fs : σ) (pluginPath pluginName : String) :
    (∀ err : Error, io.Stat (Join [pluginPath, pluginName]) fs = .error err →
      RemoveInstalledPlugin io fs pluginPath pluginName
        = (some err, fs, [IoCall.Stat (Join [pluginPath, pluginName])]))
    ∧ (∀ info : FileInfo, io.Stat (Join [pluginPath, pluginName]) fs = .ok info →
      RemoveInstalledPlugin io fs pluginPath pluginName
        = ((io.RemoveAll (Join [pluginPath, pluginName]) fs).1,
            (io.RemoveAll (Join [pluginPath, pluginName]) fs).2,
            [IoCall.Stat (Join [pluginPath, pluginName]),
              IoCall.RemoveAll (Join [pluginPath, pluginName])])) := by
  refine ⟨?_, ?_⟩
  · intro err h
    simp only [RemoveInstalledPlugin, h]
  · intro info h
    simp only [RemoveInstalledPlugin, h]

/-- Witness for C8: removing a plugin that is not installed returns the stat error
and makes no `RemoveAll` call; removing the installed plugin `a` calls `RemoveAll`
on `/plugins/a`, which deletes its subtree. -/
theorem RemoveInstalledPlugin_spec_witness :
    RemoveInstalledPlugin memIo exampleFS "/plugins" "zz"
      = (some ⟨"stat /plugins/zz: no such file or directory"⟩, exampleFS,
          [IoCall.Stat "/plugins/zz"])
    ∧ (RemoveInstalledPlugin memIo exampleFS "/plugins" "a").1 = none
    ∧ (RemoveInstalledPlugin memIo exampleFS "/plugins" "a").2.2
        = [IoCall.Stat "/plugins/a", IoCall.RemoveAll "/plugins/a"]
    ∧ (RemoveInstalledPlugin memIo exampleFS "/plugins" "a").2.1.files.map Prod.fst
        = ["/plugins/b/plugin.json", "/plugins/c/plugin.json"] :=
  ⟨(RemoveInstalledPlugin_spec memIo exampleFS "/plugins" "zz").1 _ rfl,
    congrArg (fun r => r.1)
      ((RemoveInstalledPlugin_spec memIo exampleFS "/plugins" "a").2 ⟨"/plugins/a"⟩ rfl),
    congrArg (fun r => r.2.2)
      ((RemoveInstalledPlugin_spec memIo exampleFS "/plugins" "a").2 ⟨"/plugins/a"⟩ rfl),
    (congrArg (fun r => r.2.1.files.map Prod.fst)
      ((RemoveInstalledPlugin_spec memIo exampleFS "/plugins" "a").2 ⟨"/plugins/a"⟩ rfl)).trans
      (by decide)⟩

/-- C6 (counterexample): a manifest whose version has the wrong JSON type fails to
decode, `json.Unmarshal` reporting a type error, yet the identifier is decoded and
`ReadPlugin` returns a successful `InstalledPlugin`. -/
theorem ReadPlugin_type_error_succeeds :
    (jsonUnmarshal "\x7b\"id\":\"x\",\"info\":\x7b\"version\":1\x7d\x7d" InstalledPlugin.zero).2
      = some (unmarshalTypeError (.number "1")
          "struct field InstalledPlugin.info.version of type string")
    ∧ (ReadPlugin memIo jsonUnmarshal
        ⟨[("/plugins/x/dist/plugin.json", "\x7b\"id\":\"x\",\"info\":\x7b\"version\":1\x7d\x7d")], []⟩
        "/plugins" "x").1 = (⟨"x", ⟨"0.0.0"⟩, []⟩, none) := by
  constructor <;> rfl

/-- C6 (amended): for a readable manifest whose bytes are not one well-formed JSON
value, `json.Unmarshal` fails and leaves the zero value, and `ReadPlugin` returns
the zero-value `InstalledPlugin` with the plugin-not-found error. In general the
decode error is ignored: `ReadPlugin` returns a nil error exactly when the
identifier left by the decoder is non-empty. -/
theorem ReadPlugin_malformed_manifest (io : IoUtil σ) (fs : σ)
    (pluginDir pluginName data : String)
    (hread : io.ReadFile (Join [pluginDir, pluginName, "dist", "plugin.json"]) fs = .ok data
      ∨ ((∃ e, io.ReadFile (Join [pluginDir, pluginName, "dist", "plugin.json"]) fs = .error e)
        ∧ io.ReadFile (Join [pluginDir, pluginName, "plugin.json"]) fs = .ok data)) :
    (parseJSON data = none →
      (jsonUnmarshal data InstalledPlugin.zero).1 = InstalledPlugin.zero
      ∧ (jsonUnmarshal data InstalledPlugin.zero).2 ≠ none
      ∧ (ReadPlugin io jsonUnmarshal fs pluginDir pluginName).1
        = (InstalledPlugin.zero,
            some (errorsNew ("could not find plugin " ++ pluginName ++ " in " ++ pluginDir))))
    ∧ ((ReadPlugin io jsonUnmarshal fs pluginDir pluginName).1.2 = none
      ↔ (jsonUnmarshal data InstalledPlugin.zero).1.Id ≠ "") := by
  rw [ReadPlugin_of_manifest io jsonUnmarshal fs pluginDir pluginName data hread]
  refine ⟨?_, ?_⟩
  · intro hbad
    have hz : jsonUnmarshal data InstalledPlugin.zero
        = (InstalledPlugin.zero, some ⟨"json: invalid JSON input"⟩) := by
      simp only [jsonUnmarshal, hbad]
    refine ⟨by rw [hz], by rw [hz]; simp, ?_⟩
    exact decodeManifest_of_id_empty _ _ _ _ (by rw [hz]; rfl)
  · by_cases hid : (jsonUnmarshal data InstalledPlugin.zero).1.Id = ""
    · rw [decodeManifest_of_id_empty _ _ _ _ hid]
      simp [hid]
    · rw [decodeManifest_of_id_nonempty _ _ _ _ hid]
      simp [hid]

/-- Witness for C6 (amended): a manifest cut short is rejected. -/
theorem ReadPlugin_malformed_manifest_witness :
    (ReadPlugin memIo jsonUnmarshal
        ⟨[("/plugins/x/dist/plugin.json", "\x7b\"id\":\"x\",\"info\":")], []⟩ "/plugins" "x").1
      = (InstalledPlugin.zero, some (errorsNew "could not find plugin x in /plugins")) :=
  ((ReadPlugin_malformed_manifest memIo
    ⟨[("/plugins/x/dist/plugin.json", "\x7b\"id\":\"x\",\"info\":")], []⟩ "/plugins" "x"
    "\x7b\"id\":\"x\",\"info\":" (Or.inl rfl)).1 (by rfl)).2.2

/-! ## Theorems: the registry client -/

/-- With a transport that returns no response, `createRequest` dereferences a nil
pointer whatever the earlier steps do. -/
theorem createRequest_panics (env : HttpEnv) (repoUrl : String) (subPaths : List String)
    (hdown : ∀ req, ∃ e, env.Do req = (none, some e)) :
    ∃ why, (createRequest env repoUrl subPaths).1 = .panicked why := by
  unfold createRequest
  cases env.urlParse repoUrl with
  | error e => exact ⟨_, rfl⟩
  | ok u0 =>
    simp only
    split
    · exact ⟨_, rfl⟩
    · rename_i req0 _
      obtain ⟨e, he⟩ := hdown
        ((req0.headerSet "grafana-version" env.grafanaVersion).headerSet
          "User-Agent" ("grafana " ++ env.grafanaVersion))
      rw [he]
      exact ⟨_, rfl⟩

/-- C9 (behaviour of the code): when the transport fails, `Do` returning an error
and no response, `ListAllPlugins` and `GetPlugin` do not return at all: they stop
with a nil pointer dereference in `createRequest`. -/
theorem transport_failure_panics {PluginRepo Plugin : Type} [Inhabited PluginRepo]
    [Inhabited Plugin] (env : HttpEnv) (unmarshalRepo : Unmarshal PluginRepo)
    (unmarshalPlugin : Unmarshal Plugin) (pluginId repoUrl : String)
    (hdown : ∀ req, ∃ e, env.Do req = (none, some e)) :
    (∃ why, (ListAllPlugins env unmarshalRepo repoUrl).1 = .panicked why)
    ∧ (∃ why, (GetPlugin env unmarshalPlugin pluginId repoUrl).1 = .panicked why) := by
  constructor
  · obtain ⟨why, h⟩ := createRequest_panics env repoUrl ["repo"] hdown
    exact ⟨why, by simp only [ListAllPlugins, h]⟩
  · obtain ⟨why, h⟩ := createRequest_panics env repoUrl ["repo", pluginId] hdown
    exact ⟨why, by simp only [GetPlugin, h]⟩

/-- Witness for C9: the transport of the example client is down, so both calls
panic. -/
theorem transport_failure_panics_witness :
    (∀ req, ∃ e, (exampleEnv transportDown).Do req = (none, some e))
    ∧ (∃ why, (@ListAllPlugins (List String) _ (exampleEnv transportDown)
          (fun _ v => (v, none)) "http://example.test").1 = .panicked why)
    ∧ (∃ why, (@GetPlugin String _ (exampleEnv transportDown)
          (fun _ v => (v, none)) "foo-panel" "http://example.test").1 = .panicked why) :=
  ⟨fun _ => ⟨_, rfl⟩,
    transport_failure_panics (exampleEnv transportDown) (fun _ v => (v, none))
      (fun _ v => (v, none)) "foo-panel" "http://example.test" (fun _ => ⟨_, rfl⟩)⟩

/-- The failing input of C9 evaluated: with the transport down, `ListAllPlugins` and
`GetPlugin` against `http://example.test` build their request, call `Do`, and panic
on the nil response. -/
theorem transport_failure_example :
    @ListAllPlugins (List String) _ (exampleEnv transportDown) (fun _ v => (v, none))
        "http://example.test"
      = (.panicked "nil pointer dereference (res)",
          [HttpCall.NewRequest "GET" "http://example.test/repo",
            HttpCall.Do ⟨"GET", "http://example.test/repo",
              [("grafana-version", "5.0.0"), ("User-Agent", "grafana 5.0.0")]⟩])
    ∧ @GetPlugin String _ (exampleEnv transportDown) (fun _ v => (v, none))
        "foo-panel" "http://example.test"
      = (.panicked "nil pointer dereference (res)",
          [HttpCall.NewRequest "GET" "http://example.test/repo/foo-panel",
            HttpCall.Do ⟨"GET", "http://example.test/repo/foo-panel",
              [("grafana-version", "5.0.0"), ("User-Agent", "grafana 5.0.0")]⟩]) := by
  constructor <;> rfl

/-- C10 (counterexample): against the base `http://example.test/api` the plugin id
`..` makes `GetPlugin` request `/api`, and `../x` makes it request `/api/x`; neither
path lies under `/api/repo`. -/
theorem GetPlugin_dotdot_leaves_repo :
    (@GetPlugin String _ (exampleEnv transportUp) (fun _ v => (v, none))
        ".." "http://example.test/api").2.head?
      = some (HttpCall.NewRequest "GET" "http://example.test/api")
    ∧ (@GetPlugin String _ (exampleEnv transportUp) (fun _ v => (v, none))
        "../x" "http://example.test/api").2.head?
      = some (HttpCall.NewRequest "GET" "http://example.test/api/x")
    ∧ Join [Join ["/api", "repo"], ".."] = "/api"
    ∧ Join [Join ["/api", "repo"], "../x"] = "/api/x"
    ∧ ¬ (Join ["/api", "repo"]).data <+: (Join [Join ["/api", "repo"], ".."]).data
    ∧ ¬ (Join ["/api", "repo"]).data <+: (Join [Join ["/api", "repo"], "../x"]).data := by
  refine ⟨by rfl, by rfl, by decide, by decide, by decide, by decide⟩

/-- The first `net/http` call of `createRequest` after a successful parse builds the
request for the base URL with every sub-path joined onto its path. -/
theorem createRequest_target (env : HttpEnv) (repoUrl : String) (subPaths : List String)
    (u : URL) (hparse : env.urlParse repoUrl = .ok u) :
    (createRequest env repoUrl subPaths).2.head?
      = some (HttpCall.NewRequest "GET"
          (env.urlString
            (subPaths.foldl (fun (u : URL) v => { u with Path := Join [u.Path, v] }) u))) := by
  simp only [createRequest, hparse]
  split
  · rfl
  · split <;> rfl

/-- C10 (amended): for a base URL that parses to `u`, `GetPlugin` requests the URL
whose path is `path.Join(path.Join(u.Path, "repo"), pluginId)`. When `pluginId` has
no `..` element (no `..` between slashes or the ends of the id), that path starts
with `path.Join(u.Path, "repo")` and goes on with nothing or with a `/`, so it stays
under the `repo` path of the base; when `pluginId` is one ordinary segment (not
empty, without `/`, neither `.` nor `..`) the path is `path.Join(u.Path, "repo")`
followed by `/` and `pluginId`. -/
theorem GetPlugin_request_path {Plugin : Type} [Inhabited Plugin] (env : HttpEnv)
    (unmarshal : Unmarshal Plugin) (pluginId repoUrl : String) (u : URL)
    (hparse : env.urlParse repoUrl = .ok u) :
    (GetPlugin env unmarshal pluginId repoUrl).2.head?
        = some (HttpCall.NewRequest "GET"
            (env.urlString { u with Path := Join [Join [u.Path, "repo"], pluginId] }))
    ∧ ((¬ ∃ pre suf, pluginId.data = pre ++ ['.', '.'] ++ suf
          ∧ (pre = [] ∨ pre.getLast? = some '/') ∧ (suf = [] ∨ suf.head? = some '/')) →
        ∃ rest, (Join [Join [u.Path, "repo"], pluginId]).data
            = (Join [u.Path, "repo"]).data ++ rest
          ∧ (rest = [] ∨ rest.head? = some '/'))
    ∧ ((pluginId ≠ "" ∧ '/' ∉ pluginId.data ∧ pluginId ≠ "." ∧ pluginId ≠ "..") →
        Join [Join [u.Path, "repo"], pluginId] = Join [u.Path, "repo"] ++ "/" ++ pluginId) := by
  refine ⟨?_, ?_, ?_⟩
  · have h := createRequest_target env repoUrl ["repo", pluginId] u hparse
    simp only [List.foldl_cons, List.foldl_nil] at h
    rw [← h]
    simp only [GetPlugin]
    split
    · rfl
    · rfl
    · split <;> rfl
  · intro hno
    exact Join_repo_no_dotdot u.Path pluginId
      (fun hmem => hno ((mem_splitSlash_dotdot_iff pluginId.data).mp hmem))
  · rintro ⟨h0, h1, h2, h3⟩
    refine Join_repo_ordinary u.Path pluginId ⟨?_, h1, ?_, ?_⟩
    · intro h; exact h0 (String.ext h)
    · intro h; exact h2 (String.ext h)
    · intro h; exact h3 (String.ext h)

/-- Witness for C10 (amended): `foo-panel` against `http://example.test` is requested
at `http://example.test/repo/foo-panel`, and `panels/foo` against
`http://example.test/api` stays under `/api/repo`. -/
theorem GetPlugin_request_path_witness :
    (@GetPlugin String _ (exampleEnv transportUp) (fun _ v => (v, none))
        "foo-panel" "http://example.test").2.head?
        = some (HttpCall.NewRequest "GET" "http://example.test/repo/foo-panel")
    ∧ Join [Join ["", "repo"], "foo-panel"] = "repo/foo-panel"
    ∧ ∃ rest, (Join [Join ["/api", "repo"], "panels/foo"]).data = "/api/repo".data ++ rest
        ∧ (rest = [] ∨ rest.head? = some '/') :=
  ⟨(GetPlugin_request_path (exampleEnv transportUp) (fun _ v => (v, none))
      "foo-panel" "http://example.test" ⟨"http", "example.test", ""⟩ rfl).1,
    (GetPlugin_request_path (exampleEnv transportUp) (fun (_ : String) (v : String) => (v, none))
      "foo-panel" "http://example.test" ⟨"http", "example.test", ""⟩ rfl).2.2 (by decide),
    (GetPlugin_request_path (exampleEnv transportUp) (fun (_ : String) (v : String) => (v, none))
      "panels/foo" "http://example.test/api" ⟨"http", "example.test", "/api"⟩ rfl).2.1
      (fun h => absurd ((mem_splitSlash_dotdot_iff "panels/foo".data).mpr h) (by decide))⟩

end Grafana.Services
